import Mathlib

/-!
Shallow embedding of the k8sfs virtual filesystem engine
(`src/filesystem.rs`, `src/k8s_resource.rs`, `src/kubectl.rs`).

The external world (the `kubectl` binary: current context, namespace and pod
listings, create/delete/describe calls) is modelled as a record of pure
functions, `Kubectl`.  Commands are keyed by the exact command string the code
builds, mirroring how `ResourceFile` stores `delete_cmd` / `description_cmd`
and shells them out on demand.  Byte vectors (`Vec<u8>`) are `List Nat`.
Machine integers (`u64` inodes, sizes) are modelled as `Nat`; the claims under
study never approach 2^64, and `u64` subtraction in the source is
`saturating_sub`, which is exactly `Nat` subtraction.
-/

set_option maxHeartbeats 1000000

namespace K8sfs

/-- fuser `FileType` (only the two variants the code produces). -/
inductive FileType where
  | RegularFile
  | Directory
  deriving DecidableEq

/-- `ResourceType` from `k8s_resource.rs`. -/
inductive ResourceType where
  | Root
  | Context
  | Namespace
  | Pod
  deriving DecidableEq

/-- Rust `Debug` rendering of `ResourceType`, used by `build_kubectl_command`
for unsupported resource types. -/
def ResourceType.debugStr : ResourceType → String
  | .Root => "Root"
  | .Context => "Context"
  | .Namespace => "Namespace"
  | .Pod => "Pod"

/-- `BLOCK_SIZE` from `k8s_resource.rs`. -/
def BLOCK_SIZE : Nat := 1024

/-- `DEFINITION_FILE_SUFFIX` from `k8s_resource.rs`. -/
def DEFINITION_FILE_SUFFIX : String := "_definition.yaml"

/-- `ROOT_INODE` from `filesystem.rs`. -/
def ROOT_INODE : Nat := 0

/-- `CONTEXT_INODE` from `filesystem.rs`. -/
def CONTEXT_INODE : Nat := 1

/-- libc error codes used by `filesystem.rs`. -/
def EPERM : Nat := 1

def ENOENT : Nat := 2

def ENOBUFS : Nat := 105

/-- `str::ends_with` on strings: the suffix's characters are a suffix of the
string's characters. -/
def strEndsWith (s suffix : String) : Bool :=
  suffix.data.isSuffixOf s.data

/-- The external `kubectl` world (`kubectl.rs` plus the command execution in
`k8s_resource.rs`), as pure functions.  `delete_success cmd` is the success of
running the stored delete command; `describe cmd` is `some stdout` when the
stored describe command runs and exits successfully, `none` when it errors or
exits non-zero (both of which the code treats as empty output). -/
structure Kubectl where
  current_context : String
  namespaces : String → List String
  pods : String → String → List String
  create_namespace : String → String → Bool
  delete_success : String → Bool
  describe : String → Option (List Nat)

/-- `build_kubectl_command` from `k8s_resource.rs`. -/
def build_kubectl_command (action : String) (resource_type : ResourceType)
    (context : String) (namespc : String) (resource_name : String) : String :=
  match resource_type with
  | .Namespace =>
      "kubectl --context " ++ context ++ " " ++ action ++ " namespaces " ++ resource_name
  | .Pod =>
      "kubectl --context " ++ context ++ " --namespace " ++ namespc ++ " " ++ action
        ++ " pods " ++ resource_name
  | _ =>
      "Files of type " ++ resource_type.debugStr ++ " do not support " ++ action ++ "!"

/-- `ResourceFile` from `k8s_resource.rs` (field `_resource_type` in the
source; the leading underscore is dropped for Lean). -/
structure ResourceFile where
  inode : Nat
  parent : Nat
  resource_type : ResourceType
  name : String
  delete_cmd : String
  description_cmd : String
  deriving DecidableEq

/-- `ResourceFile::new`. -/
def ResourceFile.new (inode parent : Nat) (resource_name : String)
    (resource_type : ResourceType) (context namespc : String) : ResourceFile :=
  { inode := inode
    parent := parent
    resource_type := resource_type
    name := resource_name
    delete_cmd := build_kubectl_command "delete" resource_type context namespc resource_name
    description_cmd :=
      build_kubectl_command "describe" resource_type context namespc resource_name }

/-- `ResourceFile::create_definition_file`. -/
def ResourceFile.create_definition_file (f : ResourceFile) (inode : Nat) : ResourceFile :=
  { inode := inode
    parent := f.parent
    resource_type := f.resource_type
    name := f.name ++ DEFINITION_FILE_SUFFIX
    delete_cmd := f.delete_cmd
    description_cmd := f.description_cmd }

/-- `ResourceFile::is_definition_file`. -/
def ResourceFile.is_definition_file (f : ResourceFile) : Bool :=
  strEndsWith f.name DEFINITION_FILE_SUFFIX

/-- `ResourceFile::filetype`. -/
def ResourceFile.filetype (f : ResourceFile) : FileType :=
  if f.is_definition_file then .RegularFile else .Directory

/-- `ResourceFile::get_desc`: empty for non-regular files; otherwise the
describe command's stdout on success and empty output on any failure. -/
def ResourceFile.get_desc (k : Kubectl) (f : ResourceFile) : List Nat :=
  if f.filetype ≠ FileType.RegularFile then []
  else
    match k.describe f.description_cmd with
    | some description => description
    | none => []

/-- `ResourceFile::size`. -/
def ResourceFile.size (k : Kubectl) (f : ResourceFile) : Nat :=
  if f.filetype = FileType.RegularFile then (f.get_desc k).length else 0

/-- `ResourceFile::delete`: success of the stored delete command. -/
def ResourceFile.delete (k : Kubectl) (f : ResourceFile) : Bool :=
  k.delete_success f.delete_cmd

/-- The fields of fuser's `FileAttr` that the code computes (timestamps, which
are the constant `UNIX_EPOCH`, are omitted). -/
structure FileAttr where
  ino : Nat
  size : Nat
  blocks : Nat
  kind : FileType
  perm : Nat
  nlink : Nat
  uid : Nat
  gid : Nat
  rdev : Nat
  blksize : Nat
  flags : Nat
  deriving DecidableEq

/-- `ResourceFile::fileattrs`.  Note the source computes
`(file_size + BLOCK_SIZE - 1) / file_size`: the divisor is `file_size`,
not `BLOCK_SIZE`. -/
def ResourceFile.fileattrs (k : Kubectl) (f : ResourceFile) : FileAttr :=
  let permissions : Nat := if f.filetype = FileType.Directory then 0o555 else 0o444
  let file_size := f.size k
  let file_block_size := if file_size > 0 then (file_size + BLOCK_SIZE - 1) / file_size else 0
  { ino := f.inode
    size := file_size
    blocks := file_block_size
    kind := f.filetype
    perm := permissions
    nlink := 1
    uid := 0
    gid := 0
    rdev := 0
    blksize := BLOCK_SIZE
    flags := 0 }

/-! ### The inode table and the filesystem struct (`filesystem.rs`) -/

/-- One inode-table entry: `(ResourceFile, Vec<Inode>)` under its inode key.
The `BTreeMap<Inode, File>` is modelled as an association list with distinct
keys, accessed only through `Table.get` / `Table.insert` / `Table.removeKey`
(entry order in the list is irrelevant to every operation). -/
abbrev Table : Type := List (Nat × ResourceFile × List Nat)

/-- Map lookup. -/
def Table.get : Table → Nat → Option (ResourceFile × List Nat)
  | [], _ => none
  | e :: t, i => if e.1 = i then some e.2 else Table.get t i

/-- Remove a key (all entries carrying it; with distinct keys, the one). -/
def Table.removeKey : Table → Nat → Table
  | [], _ => []
  | e :: t, i => if e.1 = i then Table.removeKey t i else e :: Table.removeKey t i

/-- Map insert: replaces any existing entry for the key. -/
def Table.insert (t : Table) (i : Nat) (v : ResourceFile × List Nat) : Table :=
  (i, v) :: Table.removeKey t i

/-- `K8sFS` from `filesystem.rs`. -/
structure K8sFS where
  inode_table : Table
  next_inode : Nat
  deriving DecidableEq

/-- `K8sFS::new`. -/
def K8sFS.new : K8sFS :=
  { inode_table := ([] : Table), next_inode := 2 }

/-- `K8sFS::calculate_next_inode`: returns the next inode and the advanced
state. -/
def calculate_next_inode (fs : K8sFS) : Nat × K8sFS :=
  (fs.next_inode, { fs with next_inode := fs.next_inode + 1 })

/-- `K8sFS::build_resource_file`: allocates an inode for the resource and one
for its definition file, registers the definition file, then registers the
resource with the definition file as its only child. -/
def build_resource_file (fs : K8sFS) (name : String) (resource_type : ResourceType)
    (parent_inode : Nat) (context namespc : String) : Nat × K8sFS :=
  let (inode, fs₁) := calculate_next_inode fs
  let file := ResourceFile.new inode parent_inode name resource_type context namespc
  let (def_inode, fs₂) := calculate_next_inode fs₁
  let definition_file := file.create_definition_file def_inode
  let t₁ := Table.insert fs₂.inode_table def_inode (definition_file, [])
  let t₂ := Table.insert t₁ inode (file, [def_inode])
  (inode, { fs₂ with inode_table := t₂ })

/-- `K8sFS::add_child_to_inode`.  The source `unwrap`s the parent entry; a
missing parent (a panic in the source, unreachable in every modelled flow) is
modelled as a no-op. -/
def add_child_to_inode (fs : K8sFS) (parent child : Nat) : K8sFS :=
  match Table.get fs.inode_table parent with
  | some (f, children) =>
      { fs with inode_table := Table.insert fs.inode_table parent (f, children ++ [child]) }
  | none => fs

/-- The inner loop of `get_file_by_name`: first child whose file name matches;
children missing from the table are skipped (the source only logs them). -/
def findInChildren (t : Table) (name : String) : List Nat → Option ResourceFile
  | [] => none
  | c :: cs =>
      match Table.get t c with
      | some (found_file, _) =>
          if found_file.name = name then some found_file else findInChildren t name cs
      | none => findInChildren t name cs

/-- `K8sFS::get_file_by_name`. -/
def get_file_by_name (fs : K8sFS) (name : String) (parent_inode : Nat) :
    Option ResourceFile :=
  match Table.get fs.inode_table parent_inode with
  | some (_, children) => findInChildren fs.inode_table name children
  | none => none

/-- `K8sFS::get_file_by_inode`. -/
def get_file_by_inode (fs : K8sFS) (inode : Nat) : Option ResourceFile :=
  match Table.get fs.inode_table inode with
  | some (found_file, _) => some found_file
  | none => none

/-- `K8sFS::clean_up_inode`: removes the entry, then removes the first
occurrence of the inode from the parent's child list (no change when the
parent is missing or does not list the inode — the source only logs). -/
def clean_up_inode (fs : K8sFS) (inode parent : Nat) : K8sFS :=
  let t := Table.removeKey fs.inode_table inode
  match Table.get t parent with
  | some (f, parent_children) =>
      { fs with inode_table := Table.insert t parent (f, parent_children.erase inode) }
  | none => { fs with inode_table := t }

/-! ### Initialization (`init` / `initialize_inode_table`) -/

/-- The inner pod loop of `initialize_inode_table`. -/
def initPods (ctx namespc : String) (namespace_inode : Nat) :
    List String → K8sFS → K8sFS
  | [], fs => fs
  | pod :: pods, fs =>
      let (pod_inode, fs₁) := build_resource_file fs pod .Pod namespace_inode ctx namespc
      let fs₂ := add_child_to_inode fs₁ namespace_inode pod_inode
      initPods ctx namespc namespace_inode pods fs₂

/-- The namespace loop of `initialize_inode_table`. -/
def initNamespaces (k : Kubectl) (ctx : String) : List String → K8sFS → K8sFS
  | [], fs => fs
  | namespc :: rest, fs =>
      let (namespace_inode, fs₁) :=
        build_resource_file fs namespc .Namespace CONTEXT_INODE ctx namespc
      let fs₂ := add_child_to_inode fs₁ CONTEXT_INODE namespace_inode
      let fs₃ := initPods ctx namespc namespace_inode (k.pods ctx namespc) fs₂
      initNamespaces k ctx rest fs₃

/-- The first half of `initialize_inode_table`: insert the root entry (child:
the context inode) and the context entry (no children yet). -/
def initRootCtx (k : Kubectl) (fs : K8sFS) : K8sFS :=
  let root := ResourceFile.new ROOT_INODE ROOT_INODE "root" .Root "" ""
  let context := k.current_context
  let context_file :=
    ResourceFile.new CONTEXT_INODE ROOT_INODE context .Context context ""
  let t₁ := Table.insert fs.inode_table root.inode (root, [context_file.inode])
  let t₂ := Table.insert t₁ context_file.inode (context_file, [])
  { fs with inode_table := t₂ }

/-- `K8sFS::initialize_inode_table`: root and context entries, then the
namespace/pod loops. -/
def initialize_inode_table (k : Kubectl) (fs : K8sFS) : K8sFS :=
  initNamespaces k k.current_context (k.namespaces k.current_context) (initRootCtx k fs)

/-! ### Operation handlers -/

/-- Reply of `mkdir`: an entry, an error code, or a panic (the source
`unwrap`s the Context entry and the freshly inserted entry). -/
inductive MkdirReply where
  | entry (attrs : FileAttr)
  | error (code : Nat)
  | panicked
  deriving DecidableEq

/-- `Filesystem::mkdir`. -/
def mkdir (k : Kubectl) (fs : K8sFS) (parent : Nat) (name : String) :
    MkdirReply × K8sFS :=
  if parent = CONTEXT_INODE then
    match Table.get fs.inode_table CONTEXT_INODE with
    | none => (.panicked, fs)
    | some (context_file, _) =>
        let context := context_file.name
        if ¬ k.create_namespace name context then (.error EPERM, fs)
        else
          let (namespace_inode, fs₁) :=
            build_resource_file fs name .Namespace CONTEXT_INODE context name
          let fs₂ := add_child_to_inode fs₁ CONTEXT_INODE namespace_inode
          match Table.get fs₂.inode_table namespace_inode with
          | some (f, _) => (.entry (f.fileattrs k), fs₂)
          | none => (.panicked, fs₂)
  else (.error EPERM, fs)

/-- Reply of `rmdir`. -/
inductive RmdirReply where
  | ok
  | error (code : Nat)
  deriving DecidableEq

/-- `Filesystem::rmdir`. -/
def rmdir (k : Kubectl) (fs : K8sFS) (parent : Nat) (name : String) :
    RmdirReply × K8sFS :=
  if parent = CONTEXT_INODE then
    match get_file_by_name fs name parent with
    | some file =>
        if ¬ file.delete k then (.error EPERM, fs)
        else
          let inode_to_delete := file.inode
          let inode_to_delete_parent := file.parent
          if inode_to_delete > 0 ∧ parent > 0 then
            (.ok, clean_up_inode fs inode_to_delete inode_to_delete_parent)
          else (.ok, fs)
    | none => (.ok, fs)
  else (.error EPERM, fs)

/-- Reply of `read`: data, an error code, or the panic of slicing
`get_desc()[offset..]` with `offset` beyond the end. -/
inductive ReadReply where
  | data (bytes : List Nat)
  | error (code : Nat)
  | panicked
  deriving DecidableEq

/-- `std::io::Read::take`: wraps a reader together with a byte limit. -/
def takeReader (r : List Nat) (limit : Nat) : List Nat × Nat :=
  (r, limit)

/-- `std::io::Take::into_inner`: returns the wrapped reader, discarding the
limit without consuming anything from the reader. -/
def intoInner (t : List Nat × Nat) : List Nat :=
  t.1

/-- `Filesystem::read`.  `read_size` is computed as in the source but the
reply is built from `get_desc()[offset..].take(read_size).into_inner()`,
i.e. the whole tail slice; slicing panics when `offset` exceeds the
content length. -/
def read (k : Kubectl) (fs : K8sFS) (inode offset size : Nat) : ReadReply :=
  match get_file_by_inode fs inode with
  | some file =>
      let read_size := min size (file.size k - offset)
      let desc := file.get_desc k
      if offset ≤ desc.length then
        .data (intoInner (takeReader (desc.drop offset) read_size))
      else .panicked
  | none => .error ENOENT

/-- One `readdir` reply entry: `(inode, next cursor, file type, name)`. -/
abbrev DirEnt : Type := Nat × Nat × FileType × String

/-- The `readdir` loop over `children.iter().enumerate().skip(offset)`.
`room` is the number of further entries the reply buffer accepts: `reply.add`
succeeds exactly when `room > 0` (covering every possible split point of the
caller's byte-sized buffer); when it fails the loop stops with
`buffer_full = true`.  Children missing from the table are skipped. -/
def readdirEntries (t : Table) (offset : Nat) :
    List (Nat × Nat) → Nat → List DirEnt × Bool
  | [], _ => ([], false)
  | (index, child_inode) :: rest, room =>
      match Table.get t child_inode with
      | some (child_resource, _) =>
          if room = 0 then ([], true)
          else
            let ent : DirEnt :=
              (child_inode, offset + index + 1, child_resource.filetype,
                child_resource.name)
            let res := readdirEntries t offset rest (room - 1)
            (ent :: res.1, res.2)
      | none => readdirEntries t offset rest room

/-- `Filesystem::readdir`: emitted entries plus the `buffer_full` flag
(`true` answers `ENOBUFS`, `false` answers ok; an unknown inode only logs and
answers ok). -/
def readdir (fs : K8sFS) (inode offset cap : Nat) : List DirEnt × Bool :=
  match Table.get fs.inode_table inode with
  | some (_, children) => readdirEntries fs.inode_table offset (children.enum.drop offset) cap
  | none => ([], false)

/-- Driver for resumed listings, following the claim's protocol: each call
gets a buffer capacity from `caps`; after a Capacity Exceeded reply the next
call starts at the cursor yielded for the last successfully emitted entry. -/
def readdirResume (fs : K8sFS) (inode : Nat) (offset : Nat) :
    List Nat → List DirEnt
  | [] => []
  | cap :: caps =>
      let res := readdir fs inode offset cap
      if res.2 then
        match res.1.getLast? with
        | some e => res.1 ++ readdirResume fs inode e.2.1 caps
        | none => res.1
      else res.1

/-! ### Concrete backends and states used by witnesses and counterexamples -/

/-- The spec's §8 scenario backend: namespaces `default` (pod `nginx`) and
`kube-system` (no pods); create and delete always succeed; describe calls
fail (empty content). -/
def demoK : Kubectl :=
  { current_context := "ctx"
    namespaces := fun _ => ["default", "kube-system"]
    pods := fun _ namespc => if namespc = "default" then ["nginx"] else []
    create_namespace := fun _ _ => true
    delete_success := fun _ => true
    describe := fun _ => none }

/-- The §8 scenario tree. -/
def demoFs : K8sFS := initialize_inode_table demoK K8sFS.new

/-- Backend with three pod-less namespaces, for the paginated-listing claim. -/
def abcK : Kubectl :=
  { current_context := "ctx"
    namespaces := fun _ => ["a", "b", "c"]
    pods := fun _ _ => []
    create_namespace := fun _ _ => true
    delete_success := fun _ => true
    describe := fun _ => none }

/-- Tree with Context children `a`, `b`, `c` at inodes 2, 4, 6. -/
def abcFs : K8sFS := initialize_inode_table abcK K8sFS.new

/-- Backend with one namespace `x` whose describe output is the two bytes
`[65, 66]`, for the read-bytes claim. -/
def xK : Kubectl :=
  { current_context := "ctx"
    namespaces := fun _ => ["x"]
    pods := fun _ _ => []
    create_namespace := fun _ _ => true
    delete_success := fun _ => true
    describe := fun _ => some [65, 66] }

/-- Tree with namespace `x` at inode 2 and `x_definition.yaml` at inode 3. -/
def xFs : K8sFS := initialize_inode_table xK K8sFS.new

/-- Backend whose describe output is the single byte `[65]`, for the
block-count claim. -/
def oneByteK : Kubectl :=
  { current_context := "ctx"
    namespaces := fun _ => ["x"]
    pods := fun _ _ => []
    create_namespace := fun _ _ => true
    delete_success := fun _ => true
    describe := fun _ => some [65] }

/-- `demoK` with a failing external delete call. -/
def noDeleteK : Kubectl :=
  { demoK with delete_success := fun _ => false }

/-- `demoK` with a failing external namespace-create call. -/
def noCreateK : Kubectl :=
  { demoK with create_namespace := fun _ _ => false }

/-! ### Operation sequences and identifier-allocation traces -/

/-- A structural mutation request (the only operations that touch the tree
after initialization). -/
inductive FsOp where
  | mkdirOp (parent : Nat) (name : String)
  | rmdirOp (parent : Nat) (name : String)

/-- State after dispatching one operation. -/
def applyOp (k : Kubectl) (fs : K8sFS) : FsOp → K8sFS
  | .mkdirOp parent name => (mkdir k fs parent name).2
  | .rmdirOp parent name => (rmdir k fs parent name).2

/-- State after dispatching a sequence of operations. -/
def runOps (k : Kubectl) : K8sFS → List FsOp → K8sFS
  | fs, [] => fs
  | fs, op :: ops => runOps k (applyOp k fs op) ops

/-- State after a sequence of `mkdir` calls (parent, name). -/
def runMkdirs (k : Kubectl) : K8sFS → List (Nat × String) → K8sFS
  | fs, [] => fs
  | fs, (parent, name) :: rest => runMkdirs k (mkdir k fs parent name).2 rest

/-- The inodes `calculate_next_inode` hands out during one
`build_resource_file` call. -/
def buildAllocs (fs : K8sFS) : List Nat :=
  [fs.next_inode, fs.next_inode + 1]

/-- The inodes allocated while dispatching one operation: `mkdir` allocates
two (resource plus definition file) exactly when it reaches
`build_resource_file`; `rmdir` allocates none. -/
def opAllocList (k : Kubectl) (fs : K8sFS) : FsOp → List Nat
  | .mkdirOp parent name =>
      if parent = CONTEXT_INODE then
        match Table.get fs.inode_table CONTEXT_INODE with
        | none => []
        | some (context_file, _) =>
            if ¬ k.create_namespace name context_file.name then []
            else buildAllocs fs
      else []
  | .rmdirOp _ _ => []

/-- All inodes allocated while dispatching a sequence of operations. -/
def opsAllocTrace (k : Kubectl) : K8sFS → List FsOp → List Nat
  | _, [] => []
  | fs, op :: ops => opAllocList k fs op ++ opsAllocTrace k (applyOp k fs op) ops

/-- The inodes allocated during the pod loop of initialization. -/
def initPodsAllocs (ctx namespc : String) (namespace_inode : Nat) :
    List String → K8sFS → List Nat
  | [], _ => []
  | pod :: pods, fs =>
      let (pod_inode, fs₁) := build_resource_file fs pod .Pod namespace_inode ctx namespc
      let fs₂ := add_child_to_inode fs₁ namespace_inode pod_inode
      buildAllocs fs ++ initPodsAllocs ctx namespc namespace_inode pods fs₂

/-- The inodes allocated during the namespace loop of initialization. -/
def initNamespacesAllocs (k : Kubectl) (ctx : String) :
    List String → K8sFS → List Nat
  | [], _ => []
  | namespc :: rest, fs =>
      let (namespace_inode, fs₁) :=
        build_resource_file fs namespc .Namespace CONTEXT_INODE ctx namespc
      let fs₂ := add_child_to_inode fs₁ CONTEXT_INODE namespace_inode
      let fs₃ := initPods ctx namespc namespace_inode (k.pods ctx namespc) fs₂
      buildAllocs fs ++ initPodsAllocs ctx namespc namespace_inode (k.pods ctx namespc) fs₂
        ++ initNamespacesAllocs k ctx rest fs₃

/-- All inodes allocated during `initialize_inode_table` from a fresh
`K8sFS::new` (the fixed Root and Context inodes are assigned as constants,
not allocated). -/
def initAllocList (k : Kubectl) : List Nat :=
  initNamespacesAllocs k k.current_context (k.namespaces k.current_context)
    (initRootCtx k K8sFS.new)

/-! ### Abstract tree layout, used to state and prove the structural
invariants of reachable states -/

/-- Abstract view of one pod: its inode (the definition file sits at the
successor inode). -/
structure PodB where
  ino : Nat
  name : String
  deriving DecidableEq

/-- Abstract view of one namespace: its inode (definition file at the
successor inode) and its pods. -/
structure NsB where
  ino : Nat
  name : String
  pods : List PodB
  deriving DecidableEq

/-- Abstract view of the whole tree: the context name and the namespace
blocks in child-list order. -/
structure Abs where
  ctxName : String
  nss : List NsB
  deriving DecidableEq

/-- Pod inodes of a pod list. -/
def podInos (pods : List PodB) : List Nat :=
  pods.map PodB.ino

/-- All "base" inodes (namespace and pod inodes; each owns the successor
inode for its definition file) in canonical traversal order. -/
def basesOfBlocks : List NsB → List Nat
  | [] => []
  | nb :: rest => nb.ino :: (podInos nb.pods ++ basesOfBlocks rest)

/-- Base inodes of an abstract tree. -/
def basesOf (a : Abs) : List Nat :=
  basesOfBlocks a.nss

/-- Each base inode together with its definition-file inode. -/
def pairKeys : List Nat → List Nat
  | [] => []
  | b :: bs => b :: (b + 1) :: pairKeys bs

/-- Every inode-table key an abstract tree accounts for. -/
def absKeys (a : Abs) : List Nat :=
  ROOT_INODE :: CONTEXT_INODE :: pairKeys (basesOf a)

/-- The root node. -/
def rootFile : ResourceFile :=
  ResourceFile.new ROOT_INODE ROOT_INODE "root" .Root "" ""

/-- The context node. -/
def ctxFile (ctx : String) : ResourceFile :=
  ResourceFile.new CONTEXT_INODE ROOT_INODE ctx .Context ctx ""

/-- A namespace node. -/
def nsFile (ctx name : String) (i : Nat) : ResourceFile :=
  ResourceFile.new i CONTEXT_INODE name .Namespace ctx name

/-- A pod node. -/
def podFile (ctx namespc name : String) (i parent : Nat) : ResourceFile :=
  ResourceFile.new i parent name .Pod ctx namespc

/-- Pod blocks laid out every two inodes from `start`. -/
def podBlocksFrom (start : Nat) : List String → List PodB
  | [] => []
  | p :: ps => ⟨start, p⟩ :: podBlocksFrom (start + 2) ps

/-- Namespace blocks laid out from `start`, each taking two inodes plus two
per pod. -/
def nsBlocksFrom (k : Kubectl) (ctx : String) (start : Nat) :
    List String → List NsB
  | [] => []
  | n :: ns =>
      let pods := k.pods ctx n
      ⟨start, n, podBlocksFrom (start + 2) pods⟩
        :: nsBlocksFrom k ctx (start + 2 + 2 * pods.length) ns

/-- The abstract tree `initialize_inode_table` builds from backend `k`. -/
def absOfInit (k : Kubectl) : Abs :=
  ⟨k.current_context, nsBlocksFrom k k.current_context 2 (k.namespaces k.current_context)⟩

/-- Every table key is below the allocator. -/
def TableWF (fs : K8sFS) : Prop :=
  ∀ e ∈ fs.inode_table, e.1 < fs.next_inode

/-- The table's keys are distinct. -/
def KeysNodup (fs : K8sFS) : Prop :=
  (fs.inode_table.map (fun e => e.1)).Nodup

/-- Entry `p` exists and lists `i` among its children. -/
def Contains (fs : K8sFS) (p i : Nat) : Prop :=
  ∃ e, Table.get fs.inode_table p = some e ∧ i ∈ e.2

/-- Well-formed layout: base inodes strictly ascend with gaps of at least
two, start at 2 or later, and stay below the allocator. -/
def AbsWF (a : Abs) (next : Nat) : Prop :=
  List.Pairwise (fun x y => x + 2 ≤ y) (basesOf a)
  ∧ ∀ b ∈ basesOf a, 2 ≤ b ∧ b + 2 ≤ next

/-- The table entries a namespace block accounts for. -/
def NsOk (fs : K8sFS) (ctx : String) (nb : NsB) : Prop :=
  Table.get fs.inode_table nb.ino
      = some (nsFile ctx nb.name nb.ino, (nb.ino + 1) :: podInos nb.pods)
  ∧ Table.get fs.inode_table (nb.ino + 1)
      = some ((nsFile ctx nb.name nb.ino).create_definition_file (nb.ino + 1), [])
  ∧ ∀ pb ∈ nb.pods,
      Table.get fs.inode_table pb.ino
          = some (podFile ctx nb.name pb.name pb.ino nb.ino, [pb.ino + 1])
      ∧ Table.get fs.inode_table (pb.ino + 1)
          = some ((podFile ctx nb.name pb.name pb.ino nb.ino).create_definition_file
              (pb.ino + 1), [])

/-- Refinement invariant: the concrete table is exactly the one described by
the abstract tree `a`. -/
structure Inv (fs : K8sFS) (a : Abs) : Prop where
  nodup : KeysNodup fs
  wf : TableWF fs
  root : Table.get fs.inode_table ROOT_INODE = some (rootFile, [CONTEXT_INODE])
  ctx : Table.get fs.inode_table CONTEXT_INODE = some (ctxFile a.ctxName, a.nss.map NsB.ino)
  blocks : ∀ nb ∈ a.nss, NsOk fs a.ctxName nb
  outside : ∀ i, i ∉ absKeys a → Table.get fs.inode_table i = none
  len : fs.inode_table.length = 2 + 2 * (basesOf a).length
  abswf : AbsWF a fs.next_inode

/-! ### Toolkit: map lemmas for `Table` -/

theorem Table.get_removeKey_self (t : Table) (i : Nat) :
    Table.get (Table.removeKey t i) i = none := by
  induction t with
  | nil => rfl
  | cons e t ih =>
      by_cases h : e.1 = i
      · simpa [Table.removeKey, h] using ih
      · simpa [Table.removeKey, Table.get, h] using ih

theorem Table.get_removeKey_ne (t : Table) (i j : Nat) (h : j ≠ i) :
    Table.get (Table.removeKey t i) j = Table.get t j := by
  induction t with
  | nil => rfl
  | cons e t ih =>
      simp only [Table.removeKey]
      by_cases he : e.1 = i
      · rw [if_pos he, ih]
        have hej : ¬ e.1 = j := by omega
        simp [Table.get, hej]
      · rw [if_neg he]
        by_cases hej : e.1 = j
        · simp [Table.get, hej]
        · simp [Table.get, hej, ih]

theorem Table.get_insert_self (t : Table) (i : Nat) (v : ResourceFile × List Nat) :
    Table.get (Table.insert t i v) i = some v := by
  simp [Table.insert, Table.get]

theorem Table.get_insert_ne (t : Table) (i j : Nat) (v : ResourceFile × List Nat)
    (h : j ≠ i) :
    Table.get (Table.insert t i v) j = Table.get t j := by
  have hij : ¬ (i = j) := fun hc => h hc.symm
  simp only [Table.insert, Table.get, hij, if_false, reduceIte]
  exact Table.get_removeKey_ne t i j h

theorem Table.get_some_mem (t : Table) (j : Nat) (v : ResourceFile × List Nat)
    (h : Table.get t j = some v) : (j, v) ∈ t := by
  induction t with
  | nil => simp [Table.get] at h
  | cons e t ih =>
      by_cases he : e.1 = j
      · simp only [Table.get, he, if_true, reduceIte] at h
        injection h with h
        subst h
        subst he
        exact List.mem_cons_self e t
      · simp only [Table.get, he, if_false, reduceIte] at h
        exact List.mem_cons_of_mem _ (ih h)

theorem Table.get_eq_none_iff (t : Table) (j : Nat) :
    Table.get t j = none ↔ j ∉ t.map (fun e => e.1) := by
  induction t with
  | nil => simp [Table.get]
  | cons e t ih =>
      by_cases he : e.1 = j
      · simp [Table.get, he]
      · have : j ≠ e.1 := fun hc => he hc.symm
        simp [Table.get, he, this, ih]

theorem Table.removeKey_sublist (t : Table) (i : Nat) :
    List.Sublist (Table.removeKey t i) t := by
  induction t with
  | nil => simp [Table.removeKey]
  | cons e t ih =>
      by_cases he : e.1 = i
      · simpa [Table.removeKey, he] using ih.cons e
      · simpa [Table.removeKey, he] using ih.cons₂ e

theorem Table.mem_insert (t : Table) (i : Nat) (v : ResourceFile × List Nat)
    (e : Nat × ResourceFile × List Nat) (h : e ∈ Table.insert t i v) :
    e = (i, v) ∨ e ∈ t := by
  simp only [Table.insert, List.mem_cons] at h
  rcases h with h | h
  · exact Or.inl h
  · exact Or.inr ((Table.removeKey_sublist t i).subset h)

theorem Table.removeKey_eq_of_get_none (t : Table) (i : Nat)
    (h : Table.get t i = none) : Table.removeKey t i = t := by
  induction t with
  | nil => rfl
  | cons e t ih =>
      by_cases he : e.1 = i
      · simp [Table.get, he] at h
      · simp only [Table.get, he, if_neg, reduceIte] at h
        simp [Table.removeKey, he, ih h]

theorem Table.length_removeKey_of_get_some (t : Table) (i : Nat)
    (v : ResourceFile × List Nat) (hn : (t.map (fun e => e.1)).Nodup)
    (h : Table.get t i = some v) :
    (Table.removeKey t i).length + 1 = t.length := by
  induction t with
  | nil => simp [Table.get] at h
  | cons e t ih =>
      simp only [List.map_cons, List.nodup_cons] at hn
      by_cases he : e.1 = i
      · have hnone : Table.get t i = none := by
          rw [Table.get_eq_none_iff]
          rw [← he]
          exact hn.1
        simp [Table.removeKey, he, Table.removeKey_eq_of_get_none t i hnone]
      · simp only [Table.get, he, if_neg, reduceIte] at h
        simp [Table.removeKey, he, ← ih hn.2 h]

theorem Table.nodup_removeKey (t : Table) (i : Nat)
    (hn : (t.map (fun e => e.1)).Nodup) :
    ((Table.removeKey t i).map (fun e => e.1)).Nodup :=
  List.Nodup.sublist ((Table.removeKey_sublist t i).map _) hn

theorem Table.nodup_insert (t : Table) (i : Nat) (v : ResourceFile × List Nat)
    (hn : (t.map (fun e => e.1)).Nodup) :
    ((Table.insert t i v).map (fun e => e.1)).Nodup := by
  simp only [Table.insert, List.map_cons, List.nodup_cons]
  refine ⟨?_, Table.nodup_removeKey t i hn⟩
  rw [← Table.get_eq_none_iff]
  exact Table.get_removeKey_self t i

theorem Table.length_insert_of_get_none (t : Table) (i : Nat)
    (v : ResourceFile × List Nat) (h : Table.get t i = none) :
    (Table.insert t i v).length = t.length + 1 := by
  simp [Table.insert, Table.removeKey_eq_of_get_none t i h]

theorem Table.length_insert_of_get_some (t : Table) (i : Nat)
    (v w : ResourceFile × List Nat) (hn : (t.map (fun e => e.1)).Nodup)
    (h : Table.get t i = some w) :
    (Table.insert t i v).length = t.length := by
  simp [Table.insert, ← Table.length_removeKey_of_get_some t i w hn h]

/-- A well-formed table has no entry at or above the allocator. -/
theorem TableWF.get_high (fs : K8sFS) (wf : TableWF fs) (j : Nat)
    (h : fs.next_inode ≤ j) : Table.get fs.inode_table j = none := by
  cases hg : Table.get fs.inode_table j with
  | none => rfl
  | some v =>
      have hm := Table.get_some_mem _ _ _ hg
      have := wf _ hm
      omega

theorem TableWF.lt_of_get_some (fs : K8sFS) (wf : TableWF fs) (j : Nat)
    (v : ResourceFile × List Nat) (h : Table.get fs.inode_table j = some v) :
    j < fs.next_inode :=
  wf _ (Table.get_some_mem _ _ _ h)

/-! ### Toolkit: the elementary state transformers -/

theorem build_resource_file_fst (fs : K8sFS) (name : String) (rt : ResourceType)
    (parent : Nat) (ctx namespc : String) :
    (build_resource_file fs name rt parent ctx namespc).1 = fs.next_inode := rfl

theorem build_resource_file_next (fs : K8sFS) (name : String) (rt : ResourceType)
    (parent : Nat) (ctx namespc : String) :
    (build_resource_file fs name rt parent ctx namespc).2.next_inode
      = fs.next_inode + 2 := rfl

theorem build_resource_file_table (fs : K8sFS) (name : String) (rt : ResourceType)
    (parent : Nat) (ctx namespc : String) :
    (build_resource_file fs name rt parent ctx namespc).2.inode_table
      = Table.insert
          (Table.insert fs.inode_table (fs.next_inode + 1)
            ((ResourceFile.new fs.next_inode parent name rt ctx namespc).create_definition_file
              (fs.next_inode + 1), []))
          fs.next_inode
          (ResourceFile.new fs.next_inode parent name rt ctx namespc,
            [fs.next_inode + 1]) := rfl

theorem build_resource_file_get_main (fs : K8sFS) (name : String) (rt : ResourceType)
    (parent : Nat) (ctx namespc : String) :
    Table.get (build_resource_file fs name rt parent ctx namespc).2.inode_table fs.next_inode
      = some (ResourceFile.new fs.next_inode parent name rt ctx namespc,
          [fs.next_inode + 1]) := by
  rw [build_resource_file_table]
  exact Table.get_insert_self _ _ _

theorem build_resource_file_get_def (fs : K8sFS) (name : String) (rt : ResourceType)
    (parent : Nat) (ctx namespc : String) :
    Table.get (build_resource_file fs name rt parent ctx namespc).2.inode_table
        (fs.next_inode + 1)
      = some ((ResourceFile.new fs.next_inode parent name rt ctx namespc).create_definition_file
          (fs.next_inode + 1), []) := by
  rw [build_resource_file_table, Table.get_insert_ne _ _ _ _ (by omega)]
  exact Table.get_insert_self _ _ _

theorem build_resource_file_get_other (fs : K8sFS) (name : String) (rt : ResourceType)
    (parent : Nat) (ctx namespc : String) (j : Nat) (h1 : j ≠ fs.next_inode)
    (h2 : j ≠ fs.next_inode + 1) :
    Table.get (build_resource_file fs name rt parent ctx namespc).2.inode_table j
      = Table.get fs.inode_table j := by
  rw [build_resource_file_table, Table.get_insert_ne _ _ _ _ h1,
    Table.get_insert_ne _ _ _ _ h2]

theorem build_resource_file_nodup (fs : K8sFS) (name : String) (rt : ResourceType)
    (parent : Nat) (ctx namespc : String) (hn : KeysNodup fs) :
    KeysNodup (build_resource_file fs name rt parent ctx namespc).2 := by
  unfold KeysNodup
  rw [build_resource_file_table]
  exact Table.nodup_insert _ _ _ (Table.nodup_insert _ _ _ hn)

theorem build_resource_file_wf (fs : K8sFS) (name : String) (rt : ResourceType)
    (parent : Nat) (ctx namespc : String) (wf : TableWF fs) :
    TableWF (build_resource_file fs name rt parent ctx namespc).2 := by
  intro e he
  rw [build_resource_file_next]
  rw [build_resource_file_table] at he
  rcases Table.mem_insert _ _ _ _ he with he | he
  · subst he
    simp only
    omega
  · rcases Table.mem_insert _ _ _ _ he with he | he
    · subst he
      simp only
      omega
    · have := wf e he
      omega

theorem build_resource_file_length (fs : K8sFS) (name : String) (rt : ResourceType)
    (parent : Nat) (ctx namespc : String) (wf : TableWF fs) :
    (build_resource_file fs name rt parent ctx namespc).2.inode_table.length
      = fs.inode_table.length + 2 := by
  rw [build_resource_file_table]
  rw [Table.length_insert_of_get_none, Table.length_insert_of_get_none]
  · exact TableWF.get_high fs wf _ (by omega)
  · rw [Table.get_insert_ne _ _ _ _ (by omega)]
    exact TableWF.get_high fs wf _ (by omega)

theorem add_child_to_inode_next (fs : K8sFS) (p c : Nat) :
    (add_child_to_inode fs p c).next_inode = fs.next_inode := by
  unfold add_child_to_inode
  cases Table.get fs.inode_table p with
  | none => rfl
  | some e => rfl

theorem add_child_to_inode_table (fs : K8sFS) (p c : Nat) (f : ResourceFile)
    (cs : List Nat) (h : Table.get fs.inode_table p = some (f, cs)) :
    (add_child_to_inode fs p c).inode_table
      = Table.insert fs.inode_table p (f, cs ++ [c]) := by
  unfold add_child_to_inode
  rw [h]

theorem add_child_to_inode_get_self (fs : K8sFS) (p c : Nat) (f : ResourceFile)
    (cs : List Nat) (h : Table.get fs.inode_table p = some (f, cs)) :
    Table.get (add_child_to_inode fs p c).inode_table p = some (f, cs ++ [c]) := by
  rw [add_child_to_inode_table fs p c f cs h]
  exact Table.get_insert_self _ _ _

theorem add_child_to_inode_get_other (fs : K8sFS) (p c j : Nat) (hj : j ≠ p) :
    Table.get (add_child_to_inode fs p c).inode_table j
      = Table.get fs.inode_table j := by
  unfold add_child_to_inode
  cases h : Table.get fs.inode_table p with
  | none => rfl
  | some e => exact Table.get_insert_ne _ _ _ _ hj

theorem add_child_to_inode_nodup (fs : K8sFS) (p c : Nat) (hn : KeysNodup fs) :
    KeysNodup (add_child_to_inode fs p c) := by
  unfold add_child_to_inode
  cases h : Table.get fs.inode_table p with
  | none => exact hn
  | some e => exact Table.nodup_insert _ _ _ hn

theorem add_child_to_inode_wf (fs : K8sFS) (p c : Nat) (wf : TableWF fs) :
    TableWF (add_child_to_inode fs p c) := by
  unfold add_child_to_inode
  cases h : Table.get fs.inode_table p with
  | none => exact wf
  | some e =>
      intro x hx
      rcases Table.mem_insert _ _ _ _ hx with hx | hx
      · have := TableWF.lt_of_get_some fs wf p e h
        subst hx
        simpa using this
      · exact wf x hx

theorem add_child_to_inode_length (fs : K8sFS) (p c : Nat) (f : ResourceFile)
    (cs : List Nat) (hn : KeysNodup fs)
    (h : Table.get fs.inode_table p = some (f, cs)) :
    (add_child_to_inode fs p c).inode_table.length = fs.inode_table.length := by
  rw [add_child_to_inode_table fs p c f cs h]
  exact Table.length_insert_of_get_some _ _ _ _ hn h

/-! ### Claim theorems: concrete code-bug demonstrations and
counterexamples -/

/-- C1: resumed directory listing does not reconstruct the unbounded pass.
With Context children `a`, `b`, `c`, a capacity-1 call at cursor 0 emits `a`
with cursor 1 and signals Capacity Exceeded; the capacity-1 call at cursor 1
emits `b` but yields cursor 3 (the code adds the starting offset to the
already-absolute index); resuming at 3 emits nothing, so `c` is omitted from
the concatenation, unlike the single unbounded pass. -/
theorem readdir_resume_omits_entries :
    readdir abcFs CONTEXT_INODE 0 1 = ([(2, 1, FileType.Directory, "a")], true)
    ∧ readdir abcFs CONTEXT_INODE 1 1 = ([(4, 3, FileType.Directory, "b")], true)
    ∧ readdir abcFs CONTEXT_INODE 3 10 = ([], false)
    ∧ readdirResume abcFs CONTEXT_INODE 0 [1, 1, 10]
        = [(2, 1, FileType.Directory, "a"), (4, 3, FileType.Directory, "b")]
    ∧ readdir abcFs CONTEXT_INODE 0 10
        = ([(2, 1, FileType.Directory, "a"), (4, 2, FileType.Directory, "b"),
            (6, 3, FileType.Directory, "c")], false)
    ∧ readdirResume abcFs CONTEXT_INODE 0 [1, 1, 10]
        ≠ (readdir abcFs CONTEXT_INODE 0 10).1 := by
  exact ⟨by decide, by decide, by decide, by decide, by decide, by decide⟩

/-- C2: read-bytes ignores the requested length and panics past the end.
The definition file at inode 3 has the 2-byte content `[65, 66]`; a read of
length 1 at offset 0 replies with both bytes (the `take(read_size)` limit is
discarded by `into_inner`), exceeding `min(requested, remaining) = 1`; a read
at offset 3, beyond the content length 2, panics when slicing
`get_desc()[offset..]` instead of returning an empty slice. -/
theorem read_returns_full_tail_and_panics_beyond_end :
    Table.get xFs.inode_table 3
        = some ((ResourceFile.new 2 CONTEXT_INODE "x" .Namespace "ctx" "x").create_definition_file 3,
            [])
    ∧ ResourceFile.get_desc xK
          ((ResourceFile.new 2 CONTEXT_INODE "x" .Namespace "ctx" "x").create_definition_file 3)
        = [65, 66]
    ∧ read xK xFs 3 0 1 = .data [65, 66]
    ∧ read xK xFs 3 2 4 = .data []
    ∧ read xK xFs 3 3 4 = .panicked := by
  decide

/-- C8: the block count divides by the file size, not by the block unit.
For a definition file with 1-byte content, the attributes report
`blocks = (1 + 1024 - 1) / 1 = 1024`, whereas the ceiling of size divided by
the 1024-byte block unit is 1. -/
theorem fileattrs_blocks_divides_by_size :
    (ResourceFile.fileattrs oneByteK
        ((ResourceFile.new 2 CONTEXT_INODE "x" .Namespace "ctx" "x").create_definition_file 3)).size
      = 1
    ∧ (ResourceFile.fileattrs oneByteK
          ((ResourceFile.new 2 CONTEXT_INODE "x" .Namespace "ctx" "x").create_definition_file 3)).blocks
        = 1024
    ∧ (1 + BLOCK_SIZE - 1) / BLOCK_SIZE = 1
    ∧ (ResourceFile.fileattrs oneByteK
          ((ResourceFile.new 2 CONTEXT_INODE "x" .Namespace "ctx" "x").create_definition_file 3)).blocks
        ≠ (1 + BLOCK_SIZE - 1) / BLOCK_SIZE := by
  decide

/-- C3 counterexample: removing namespace `default` (external delete
succeeds, reply is ok and the namespace entry is gone) leaves the entry of
its definition file `default_definition.yaml` at inode 3 in the node table,
still reachable by identifier — contradicting "removes both the Namespace
node and its Definition node from the node table" and "afterwards neither
node is reachable by identifier". -/
theorem rmdir_leaves_definition_entry :
    (rmdir demoK demoFs CONTEXT_INODE "default").1 = RmdirReply.ok
    ∧ Table.get (rmdir demoK demoFs CONTEXT_INODE "default").2.inode_table 2 = none
    ∧ Table.get (rmdir demoK demoFs CONTEXT_INODE "default").2.inode_table 3
        = some ((ResourceFile.new 2 CONTEXT_INODE "default" .Namespace "ctx"
              "default").create_definition_file 3, [])
    ∧ get_file_by_inode (rmdir demoK demoFs CONTEXT_INODE "default").2 3
        = some ((ResourceFile.new 2 CONTEXT_INODE "default" .Namespace "ctx"
              "default").create_definition_file 3) := by
  decide

/-- C4 counterexample: after initialization, the definition node
`default_definition.yaml` (inode 3) has `parent_id = 1` (the Context), but
the Context's child list `[2, 6]` does not contain 3; instead 3 sits in the
child list of inode 2 (`default`), the directory it describes — so its
`parent_id` does not match the entry whose child list contains it, and it is
a child, not a sibling, of the directory it describes. -/
theorem definition_parent_mismatch :
    Table.get demoFs.inode_table 3
        = some ((ResourceFile.new 2 CONTEXT_INODE "default" .Namespace "ctx"
              "default").create_definition_file 3, [])
    ∧ ((ResourceFile.new 2 CONTEXT_INODE "default" .Namespace "ctx"
          "default").create_definition_file 3).parent = CONTEXT_INODE
    ∧ Table.get demoFs.inode_table CONTEXT_INODE = some (ctxFile "ctx", [2, 6])
    ∧ (3 : Nat) ∉ [2, 6]
    ∧ Table.get demoFs.inode_table 2
        = some (ResourceFile.new 2 CONTEXT_INODE "default" .Namespace "ctx" "default", [3, 4])
    ∧ (3 : Nat) ∈ [3, 4]
    ∧ (2 : Nat) ≠ ((ResourceFile.new 2 CONTEXT_INODE "default" .Namespace "ctx"
          "default").create_definition_file 3).parent := by
  decide

/-- C5 counterexample: `mkdir` of `web` under the Context succeeds and
creates the definition node `web_definition.yaml` at inode 9, but a
subsequent unbounded listing of the Context shows only `default`,
`kube-system` and `web` — the Definition node is not visible in the
Context's listing (it sits in the listing of the new `web` directory). -/
theorem mkdir_definition_not_in_context_listing :
    Table.get (mkdir demoK demoFs CONTEXT_INODE "web").2.inode_table 9
        = some ((ResourceFile.new 8 CONTEXT_INODE "web" .Namespace "ctx"
              "web").create_definition_file 9, [])
    ∧ (readdir (mkdir demoK demoFs CONTEXT_INODE "web").2 CONTEXT_INODE 0 10).1.map
          (fun e => e.2.2.2)
        = ["default", "kube-system", "web"]
    ∧ "web_definition.yaml"
        ∉ (readdir (mkdir demoK demoFs CONTEXT_INODE "web").2 CONTEXT_INODE 0 10).1.map
            (fun e => e.2.2.2) := by
  decide

/-- C10: the reported file type and permission bits are a function of the
display name's `_definition.yaml` suffix alone — the stored kind tag is
ignored (changing it changes nothing in the attributes) — and a Namespace
directory created by `mkdir` under a name ending in the suffix is reported
as a read-only regular file (type RegularFile, permissions 0o444) even
though its kind tag is Namespace. -/
theorem filetype_determined_by_name_suffix :
    (∀ (f : ResourceFile) (rt : ResourceType) (k : Kubectl),
        ResourceFile.filetype { f with resource_type := rt } = f.filetype
        ∧ ResourceFile.fileattrs k { f with resource_type := rt } = f.fileattrs k
        ∧ (f.filetype = FileType.RegularFile
            ↔ strEndsWith f.name DEFINITION_FILE_SUFFIX = true))
    ∧ Table.get (mkdir demoK demoFs CONTEXT_INODE "web_definition.yaml").2.inode_table 8
        = some (ResourceFile.new 8 CONTEXT_INODE "web_definition.yaml" .Namespace "ctx"
            "web_definition.yaml", [9])
    ∧ (ResourceFile.new 8 CONTEXT_INODE "web_definition.yaml" .Namespace "ctx"
          "web_definition.yaml").resource_type = ResourceType.Namespace
    ∧ (mkdir demoK demoFs CONTEXT_INODE "web_definition.yaml").1
        = MkdirReply.entry (ResourceFile.fileattrs demoK
            (ResourceFile.new 8 CONTEXT_INODE "web_definition.yaml" .Namespace "ctx"
              "web_definition.yaml"))
    ∧ (ResourceFile.fileattrs demoK
          (ResourceFile.new 8 CONTEXT_INODE "web_definition.yaml" .Namespace "ctx"
            "web_definition.yaml")).kind = FileType.RegularFile
    ∧ (ResourceFile.fileattrs demoK
          (ResourceFile.new 8 CONTEXT_INODE "web_definition.yaml" .Namespace "ctx"
            "web_definition.yaml")).perm = 0o444 := by
  refine ⟨fun f rt k => ⟨rfl, rfl, ?_⟩, by decide, by decide, by decide, by decide, by decide⟩
  unfold ResourceFile.filetype ResourceFile.is_definition_file
  cases h : strEndsWith f.name DEFINITION_FILE_SUFFIX <;> simp [h]

/-- C7: remove-directory error handling: permission-denied when the parent is
not the Context anchor; success leaving the state untouched when the name
does not resolve among the Context's children (idempotent deletion); and
permission-denied leaving the state untouched when the external delete call
fails. -/
theorem rmdir_error_handling :
    (∀ (k : Kubectl) (fs : K8sFS) (parent : Nat) (name : String),
        parent ≠ CONTEXT_INODE →
        rmdir k fs parent name = (RmdirReply.error EPERM, fs))
    ∧ (∀ (k : Kubectl) (fs : K8sFS) (name : String),
        get_file_by_name fs name CONTEXT_INODE = none →
        rmdir k fs CONTEXT_INODE name = (RmdirReply.ok, fs))
    ∧ (∀ (k : Kubectl) (fs : K8sFS) (name : String) (f : ResourceFile),
        get_file_by_name fs name CONTEXT_INODE = some f →
        k.delete_success f.delete_cmd = false →
        rmdir k fs CONTEXT_INODE name = (RmdirReply.error EPERM, fs)) := by
  refine ⟨fun k fs parent name h => ?_, fun k fs name h => ?_, fun k fs name f h hdel => ?_⟩
  · simp [rmdir, h]
  · simp [rmdir, h]
  · simp [rmdir, h, ResourceFile.delete, hdel]

/-- C7 witness: the three branches at concrete inputs: `rmdir` under the root
(parent 0) is permission-denied; `rmdir` of an unknown name under the Context
succeeds unchanged; `rmdir` of `default` with a failing external delete is
permission-denied and unchanged. -/
theorem rmdir_error_handling_witness :
    rmdir demoK demoFs 0 "default" = (RmdirReply.error EPERM, demoFs)
    ∧ rmdir demoK demoFs CONTEXT_INODE "nope" = (RmdirReply.ok, demoFs)
    ∧ rmdir noDeleteK demoFs CONTEXT_INODE "default" = (RmdirReply.error EPERM, demoFs) := by
  refine ⟨rmdir_error_handling.1 demoK demoFs 0 "default" (by decide),
    rmdir_error_handling.2.1 demoK demoFs "nope" (by decide),
    rmdir_error_handling.2.2 noDeleteK demoFs "default"
      (ResourceFile.new 2 CONTEXT_INODE "default" .Namespace "ctx" "default")
      (by decide) (by decide)⟩

/-- C3 (amended): when the name resolves to a node `f` under the Context and
the external delete succeeds, `rmdir` replies ok, removes `f`'s entry from
the table (so `f` is no longer reachable by identifier), and removes
`f.inode` from the Context's child list; every other entry — in particular
the Definition node's — is left in place. -/
theorem rmdir_removes_namespace_keeps_definition
    (k : Kubectl) (fs : K8sFS) (name : String) (f : ResourceFile)
    (cf : ResourceFile) (ccs : List Nat)
    (hfind : get_file_by_name fs name CONTEXT_INODE = some f)
    (hdel : k.delete_success f.delete_cmd = true)
    (hpos : 0 < f.inode) (hneq : f.inode ≠ CONTEXT_INODE)
    (hpar : f.parent = CONTEXT_INODE)
    (hctx : Table.get fs.inode_table CONTEXT_INODE = some (cf, ccs)) :
    (rmdir k fs CONTEXT_INODE name).1 = RmdirReply.ok
    ∧ Table.get (rmdir k fs CONTEXT_INODE name).2.inode_table f.inode = none
    ∧ get_file_by_inode (rmdir k fs CONTEXT_INODE name).2 f.inode = none
    ∧ Table.get (rmdir k fs CONTEXT_INODE name).2.inode_table CONTEXT_INODE
        = some (cf, ccs.erase f.inode)
    ∧ ∀ j, j ≠ f.inode → j ≠ CONTEXT_INODE →
        Table.get (rmdir k fs CONTEXT_INODE name).2.inode_table j
          = Table.get fs.inode_table j := by
  have hcnd : f.inode > 0 ∧ CONTEXT_INODE > 0 := ⟨hpos, by decide⟩
  have hrm : rmdir k fs CONTEXT_INODE name
      = (RmdirReply.ok, clean_up_inode fs f.inode f.parent) := by
    simp [rmdir, hfind, ResourceFile.delete, hdel, hcnd]
  have hgetrm : Table.get (Table.removeKey fs.inode_table f.inode) CONTEXT_INODE
      = some (cf, ccs) := by
    rw [Table.get_removeKey_ne _ _ _ (fun hc => hneq hc.symm)]
    exact hctx
  have hclean : (clean_up_inode fs f.inode f.parent).inode_table
      = Table.insert (Table.removeKey fs.inode_table f.inode) CONTEXT_INODE
          (cf, ccs.erase f.inode) := by
    rw [hpar]
    simp only [clean_up_inode, hgetrm]
  rw [hrm]
  refine ⟨rfl, ?_, ?_, ?_, ?_⟩
  · rw [hclean, Table.get_insert_ne _ _ _ _ hneq, Table.get_removeKey_self]
  · unfold get_file_by_inode
    rw [hclean, Table.get_insert_ne _ _ _ _ hneq, Table.get_removeKey_self]
  · rw [hclean, Table.get_insert_self]
  · intro j hj hjc
    rw [hclean, Table.get_insert_ne _ _ _ _ hjc, Table.get_removeKey_ne _ _ _ hj]

/-- C3 amendment witness: deleting `default` in the §8 scenario: reply ok,
inode 2 gone from the table, Context children become `[6]`, and the
definition entry at inode 3 is untouched. -/
theorem rmdir_removes_namespace_keeps_definition_witness :
    (rmdir demoK demoFs CONTEXT_INODE "default").1 = RmdirReply.ok
    ∧ Table.get (rmdir demoK demoFs CONTEXT_INODE "default").2.inode_table 2 = none
    ∧ get_file_by_inode (rmdir demoK demoFs CONTEXT_INODE "default").2 2 = none
    ∧ Table.get (rmdir demoK demoFs CONTEXT_INODE "default").2.inode_table CONTEXT_INODE
        = some (ctxFile "ctx", List.erase [2, 6] 2)
    ∧ Table.get (rmdir demoK demoFs CONTEXT_INODE "default").2.inode_table 3
        = Table.get demoFs.inode_table 3 := by
  have h := rmdir_removes_namespace_keeps_definition demoK demoFs "default"
    (ResourceFile.new 2 CONTEXT_INODE "default" .Namespace "ctx" "default")
    (ctxFile "ctx") [2, 6] (by decide) (by decide) (by decide) (by decide)
    (by decide) (by decide)
  exact ⟨h.1, h.2.1, h.2.2.1, h.2.2.2.1, h.2.2.2.2 3 (by decide) (by decide)⟩

/-- A listing call whose buffer holds at least as many entries as remain
emits exactly the table-resolvable children, in order, with
`cursor = offset + absolute index + 1`, and does not signal Capacity
Exceeded. -/
theorem readdirEntries_of_le (t : Table) (off : Nat) (pairs : List (Nat × Nat))
    (cap : Nat) (h : pairs.length ≤ cap) :
    readdirEntries t off pairs cap
      = (pairs.filterMap (fun p =>
          (Table.get t p.2).map (fun e => (p.2, off + p.1 + 1, e.1.filetype, e.1.name))),
        false) := by
  induction pairs generalizing cap with
  | nil => rfl
  | cons p rest ih =>
      obtain ⟨i, c⟩ := p
      simp only [List.length_cons] at h
      cases hg : Table.get t c with
      | none =>
          simp only [readdirEntries, hg, List.filterMap_cons, Option.map_none']
          exact ih cap (by omega)
      | some e =>
          have hcap : ¬ cap = 0 := by omega
          simp only [readdirEntries, hg, hcap, if_false, reduceIte, List.filterMap_cons,
            Option.map_some']
          rw [ih (cap - 1) (by omega)]

/-- Unfolding `readdir` at a present directory entry. -/
theorem readdir_of_get (fs : K8sFS) (inode off cap : Nat) (f : ResourceFile)
    (cs : List Nat) (h : Table.get fs.inode_table inode = some (f, cs)) :
    readdir fs inode off cap
      = readdirEntries fs.inode_table off (cs.enum.drop off) cap := by
  unfold readdir
  rw [h]

/-- C5 (amended): make-directory is permission-denied off the Context anchor
and permission-denied with the state unchanged when the external create
fails; on success under the Context it creates the Namespace node (table
entry, reply attributes, appended to the Context's child list, visible in a
subsequent Context listing) and its Definition node, which is visible in a
subsequent listing of the new Namespace directory (not of the Context). -/
theorem mkdir_spec :
    (∀ (k : Kubectl) (fs : K8sFS) (parent : Nat) (name : String),
        parent ≠ CONTEXT_INODE →
        mkdir k fs parent name = (MkdirReply.error EPERM, fs))
    ∧ (∀ (k : Kubectl) (fs : K8sFS) (name : String) (cf : ResourceFile) (ccs : List Nat),
        Table.get fs.inode_table CONTEXT_INODE = some (cf, ccs) →
        k.create_namespace name cf.name = false →
        mkdir k fs CONTEXT_INODE name = (MkdirReply.error EPERM, fs))
    ∧ (∀ (k : Kubectl) (fs : K8sFS) (name : String) (cf : ResourceFile) (ccs : List Nat),
        TableWF fs →
        Table.get fs.inode_table CONTEXT_INODE = some (cf, ccs) →
        k.create_namespace name cf.name = true →
        (mkdir k fs CONTEXT_INODE name).1
            = MkdirReply.entry (ResourceFile.fileattrs k
                (ResourceFile.new fs.next_inode CONTEXT_INODE name .Namespace cf.name name))
        ∧ Table.get (mkdir k fs CONTEXT_INODE name).2.inode_table fs.next_inode
            = some (ResourceFile.new fs.next_inode CONTEXT_INODE name .Namespace cf.name name,
                [fs.next_inode + 1])
        ∧ Table.get (mkdir k fs CONTEXT_INODE name).2.inode_table (fs.next_inode + 1)
            = some ((ResourceFile.new fs.next_inode CONTEXT_INODE name .Namespace cf.name
                  name).create_definition_file (fs.next_inode + 1), [])
        ∧ Table.get (mkdir k fs CONTEXT_INODE name).2.inode_table CONTEXT_INODE
            = some (cf, ccs ++ [fs.next_inode])
        ∧ (fs.next_inode, ccs.length + 1,
              (ResourceFile.new fs.next_inode CONTEXT_INODE name .Namespace cf.name
                name).filetype, name)
            ∈ (readdir (mkdir k fs CONTEXT_INODE name).2 CONTEXT_INODE 0 (ccs.length + 1)).1
        ∧ (readdir (mkdir k fs CONTEXT_INODE name).2 fs.next_inode 0 1).1
            = [(fs.next_inode + 1, 1,
                ((ResourceFile.new fs.next_inode CONTEXT_INODE name .Namespace cf.name
                    name).create_definition_file (fs.next_inode + 1)).filetype,
                name ++ DEFINITION_FILE_SUFFIX)]) := by
  refine ⟨fun k fs parent name h => by simp [mkdir, h],
    fun k fs name cf ccs hctx hfail => by simp [mkdir, hctx, hfail],
    fun k fs name cf ccs wf hctx hok => ?_⟩
  have h1 : (1 : Nat) < fs.next_inode := by
    have := TableWF.lt_of_get_some fs wf CONTEXT_INODE (cf, ccs) hctx
    simpa [CONTEXT_INODE] using this
  set i := fs.next_inode with hi
  set nf := ResourceFile.new i CONTEXT_INODE name .Namespace cf.name name with hnf
  set fs₁ := (build_resource_file fs name .Namespace CONTEXT_INODE cf.name name).2 with hfs₁
  have hg₁i : Table.get fs₁.inode_table i = some (nf, [i + 1]) :=
    build_resource_file_get_main fs name .Namespace CONTEXT_INODE cf.name name
  have hg₁d : Table.get fs₁.inode_table (i + 1)
      = some (nf.create_definition_file (i + 1), []) :=
    build_resource_file_get_def fs name .Namespace CONTEXT_INODE cf.name name
  have hg₁c : Table.get fs₁.inode_table CONTEXT_INODE = some (cf, ccs) := by
    rw [hfs₁, build_resource_file_get_other fs name .Namespace CONTEXT_INODE cf.name name
      CONTEXT_INODE (by simp [CONTEXT_INODE]; omega) (by simp [CONTEXT_INODE]; omega)]
    exact hctx
  set fs₂ := add_child_to_inode fs₁ CONTEXT_INODE i with hfs₂
  have hg₂c : Table.get fs₂.inode_table CONTEXT_INODE = some (cf, ccs ++ [i]) :=
    add_child_to_inode_get_self fs₁ CONTEXT_INODE i cf ccs hg₁c
  have hic : i ≠ CONTEXT_INODE := by simp [CONTEXT_INODE]; omega
  have hdc : i + 1 ≠ CONTEXT_INODE := by simp [CONTEXT_INODE]; omega
  have hg₂i : Table.get fs₂.inode_table i = some (nf, [i + 1]) := by
    rw [hfs₂, add_child_to_inode_get_other fs₁ CONTEXT_INODE i i hic]
    exact hg₁i
  have hg₂d : Table.get fs₂.inode_table (i + 1)
      = some (nf.create_definition_file (i + 1), []) := by
    rw [hfs₂, add_child_to_inode_get_other fs₁ CONTEXT_INODE i (i + 1) hdc]
    exact hg₁d
  have hmk : mkdir k fs CONTEXT_INODE name = (MkdirReply.entry (nf.fileattrs k), fs₂) := by
    unfold mkdir
    rw [if_pos rfl]
    simp only [hctx]
    rw [if_neg (fun hc => hc hok)]
    rw [show (build_resource_file fs name .Namespace CONTEXT_INODE cf.name name)
        = (i, fs₁) from rfl]
    simp only [← hfs₂, hg₂i]
  rw [hmk]
  refine ⟨rfl, hg₂i, hg₂d, hg₂c, ?_, ?_⟩
  · show _ ∈ (readdir fs₂ CONTEXT_INODE 0 (ccs.length + 1)).1
    rw [readdir_of_get fs₂ CONTEXT_INODE 0 (ccs.length + 1) cf (ccs ++ [i]) hg₂c]
    rw [List.drop_zero]
    rw [readdirEntries_of_le _ _ _ _ (by simp)]
    simp only
    apply List.mem_filterMap.2
    refine ⟨(ccs.length, i), ?_, ?_⟩
    · rw [List.mk_mem_enum_iff_getElem?]
      simp
    · rw [hg₂i]
      simp
      rfl
  · show (readdir fs₂ i 0 1).1 = _
    rw [readdir_of_get fs₂ i 0 1 nf [i + 1] hg₂i]
    rw [List.drop_zero]
    rw [readdirEntries_of_le _ _ _ _ (by simp)]
    simp only [List.enum, List.enumFrom, List.filterMap_cons, hg₂d, Option.map_some',
      List.filterMap_nil]
    rfl

/-- C5 amendment witness: `mkdir` of `web` in the §8 scenario: reply is the
new namespace's attributes, entries appear at inodes 8 and 9, the Context
children become `[2, 6, 8]`, `web` shows up in the Context listing and
`web_definition.yaml` in the listing of inode 8. -/
theorem mkdir_spec_witness :
    mkdir demoK demoFs 0 "web" = (MkdirReply.error EPERM, demoFs)
    ∧ mkdir noCreateK demoFs CONTEXT_INODE "web" = (MkdirReply.error EPERM, demoFs)
    ∧ Table.get (mkdir demoK demoFs CONTEXT_INODE "web").2.inode_table 8
        = some (ResourceFile.new 8 CONTEXT_INODE "web" .Namespace "ctx" "web", [9])
    ∧ (8, 3, (ResourceFile.new 8 CONTEXT_INODE "web" .Namespace "ctx" "web").filetype, "web")
        ∈ (readdir (mkdir demoK demoFs CONTEXT_INODE "web").2 CONTEXT_INODE 0 3).1
    ∧ (readdir (mkdir demoK demoFs CONTEXT_INODE "web").2 8 0 1).1
        = [(9, 1,
            ((ResourceFile.new 8 CONTEXT_INODE "web" .Namespace "ctx"
                "web").create_definition_file 9).filetype,
            "web" ++ DEFINITION_FILE_SUFFIX)] := by
  have h := mkdir_spec.2.2 demoK demoFs "web" (ctxFile "ctx") [2, 6]
    (by unfold TableWF; decide) (by decide) (by decide)
  exact ⟨mkdir_spec.1 demoK demoFs 0 "web" (by decide),
    mkdir_spec.2.1 noCreateK demoFs "web" (ctxFile "ctx") [2, 6] (by decide) (by decide),
    h.2.1, h.2.2.2.2.1, h.2.2.2.2.2⟩

/-! ### Layout arithmetic for the abstract tree -/

theorem mem_pairKeys (l : List Nat) (x : Nat) :
    x ∈ pairKeys l ↔ ∃ b ∈ l, x = b ∨ x = b + 1 := by
  induction l with
  | nil => simp [pairKeys]
  | cons b bs ih =>
      simp only [pairKeys, List.mem_cons, ih]
      constructor
      · rintro (h | h | ⟨c, hc, hx⟩)
        · exact ⟨b, Or.inl rfl, Or.inl h⟩
        · exact ⟨b, Or.inl rfl, Or.inr h⟩
        · exact ⟨c, Or.inr hc, hx⟩
      · rintro ⟨c, (hc | hc), hx⟩
        · subst hc
          rcases hx with hx | hx
          · exact Or.inl hx
          · exact Or.inr (Or.inl hx)
        · exact Or.inr (Or.inr ⟨c, hc, hx⟩)

theorem podBlocksFrom_length (s : Nat) (ps : List String) :
    (podBlocksFrom s ps).length = ps.length := by
  induction ps generalizing s with
  | nil => rfl
  | cons p ps ih => simp [podBlocksFrom, ih]

theorem podBlocksFrom_names (s : Nat) (ps : List String) :
    (podBlocksFrom s ps).map PodB.name = ps := by
  induction ps generalizing s with
  | nil => rfl
  | cons p ps ih => simp [podBlocksFrom, ih]

theorem podInos_podBlocksFrom (s : Nat) (p : String) (ps : List String) :
    podInos (podBlocksFrom s (p :: ps)) = s :: podInos (podBlocksFrom (s + 2) ps) := rfl

theorem podBlocksFrom_base_bounds (s : Nat) (ps : List String) :
    ∀ b ∈ podInos (podBlocksFrom s ps), s ≤ b ∧ b + 2 ≤ s + 2 * ps.length := by
  induction ps generalizing s with
  | nil => simp [podBlocksFrom, podInos]
  | cons p ps ih =>
      intro b hb
      rw [podInos_podBlocksFrom] at hb
      rcases List.mem_cons.1 hb with hb | hb
      · subst hb
        simp only [List.length_cons]
        omega
      · have := ih (s + 2) b hb
        simp only [List.length_cons]
        omega

theorem podBlocksFrom_pairwise (s : Nat) (ps : List String) :
    List.Pairwise (fun x y => x + 2 ≤ y) (podInos (podBlocksFrom s ps)) := by
  induction ps generalizing s with
  | nil => simp [podBlocksFrom, podInos]
  | cons p ps ih =>
      rw [podInos_podBlocksFrom]
      refine List.Pairwise.cons ?_ (ih (s + 2))
      intro b hb
      have := podBlocksFrom_base_bounds (s + 2) ps b hb
      omega

theorem basesOfBlocks_nsBlocksFrom_cons (k : Kubectl) (ctx : String) (s : Nat)
    (n : String) (ns : List String) :
    basesOfBlocks (nsBlocksFrom k ctx s (n :: ns))
      = s :: (podInos (podBlocksFrom (s + 2) (k.pods ctx n))
          ++ basesOfBlocks (nsBlocksFrom k ctx (s + 2 + 2 * (k.pods ctx n).length) ns)) := rfl

theorem nsBlocksFrom_base_bounds (k : Kubectl) (ctx : String) (s : Nat)
    (ns : List String) :
    ∀ b ∈ basesOfBlocks (nsBlocksFrom k ctx s ns),
      s ≤ b ∧ b + 2 ≤ s + 2 * (basesOfBlocks (nsBlocksFrom k ctx s ns)).length := by
  induction ns generalizing s with
  | nil => simp [nsBlocksFrom, basesOfBlocks]
  | cons n ns ih =>
      intro b hb
      rw [basesOfBlocks_nsBlocksFrom_cons] at hb ⊢
      simp only [List.length_cons, List.length_append, podBlocksFrom_length, podInos,
        List.length_map]
      rcases List.mem_cons.1 hb with hb | hb
      · omega
      · rcases List.mem_append.1 hb with hb | hb
        · have := podBlocksFrom_base_bounds (s + 2) (k.pods ctx n) b hb
          omega
        · have := ih (s + 2 + 2 * (k.pods ctx n).length) b hb
          omega

theorem nsBlocksFrom_pairwise (k : Kubectl) (ctx : String) (s : Nat)
    (ns : List String) :
    List.Pairwise (fun x y => x + 2 ≤ y) (basesOfBlocks (nsBlocksFrom k ctx s ns)) := by
  induction ns generalizing s with
  | nil => simp [nsBlocksFrom, basesOfBlocks]
  | cons n ns ih =>
      rw [basesOfBlocks_nsBlocksFrom_cons]
      refine List.Pairwise.cons ?_ ?_
      · intro b hb
        rcases List.mem_append.1 hb with hb | hb
        · have := podBlocksFrom_base_bounds (s + 2) (k.pods ctx n) b hb
          omega
        · have := nsBlocksFrom_base_bounds k ctx (s + 2 + 2 * (k.pods ctx n).length) ns b hb
          omega
      · rw [List.pairwise_append]
        refine ⟨podBlocksFrom_pairwise _ _, ih _, ?_⟩
        intro x hx y hy
        have hx' := podBlocksFrom_base_bounds (s + 2) (k.pods ctx n) x hx
        have hy' := nsBlocksFrom_base_bounds k ctx (s + 2 + 2 * (k.pods ctx n).length) ns y hy
        simp only [podBlocksFrom_length] at hx'
        omega

theorem basesOfBlocks_nsBlocksFrom_length (k : Kubectl) (ctx : String) (s : Nat)
    (ns : List String) :
    2 * (basesOfBlocks (nsBlocksFrom k ctx s ns)).length
      = (ns.map (fun n => 2 + 2 * (k.pods ctx n).length)).sum := by
  induction ns generalizing s with
  | nil => simp [nsBlocksFrom, basesOfBlocks]
  | cons n ns ih =>
      rw [basesOfBlocks_nsBlocksFrom_cons]
      simp only [List.length_cons, List.length_append, podInos, List.length_map,
        podBlocksFrom_length, List.map_cons, List.sum_cons]
      rw [← ih (s + 2 + 2 * (k.pods ctx n).length)]
      ring

theorem nsBlocksFrom_names (k : Kubectl) (ctx : String) (s : Nat) (ns : List String) :
    (nsBlocksFrom k ctx s ns).map NsB.name = ns := by
  induction ns generalizing s with
  | nil => rfl
  | cons n ns ih => simp [nsBlocksFrom, ih]

theorem nsBlocksFrom_pod_names (k : Kubectl) (ctx : String) (s : Nat) (ns : List String) :
    ∀ nb ∈ nsBlocksFrom k ctx s ns, nb.pods.map PodB.name = k.pods ctx nb.name := by
  induction ns generalizing s with
  | nil => simp [nsBlocksFrom]
  | cons n ns ih =>
      intro nb hnb
      rcases List.mem_cons.1 hnb with hnb | hnb
      · subst hnb
        exact podBlocksFrom_names _ _
      · exact ih _ nb hnb

/-! ### The initialization loops, specified -/

theorem initPods_next (ctx n : String) (nsI : Nat) (ps : List String) (fs : K8sFS) :
    (initPods ctx n nsI ps fs).next_inode = fs.next_inode + 2 * ps.length := by
  induction ps generalizing fs with
  | nil => simp [initPods]
  | cons p ps ih =>
      simp only [initPods]
      rw [ih, add_child_to_inode_next, build_resource_file_next]
      simp only [List.length_cons]
      ring

theorem initPods_spec (ctx n : String) (nsI : Nat) (ps : List String) (fs : K8sFS)
    (f : ResourceFile) (cs : List Nat)
    (hn : KeysNodup fs) (wf : TableWF fs)
    (hget : Table.get fs.inode_table nsI = some (f, cs)) :
    KeysNodup (initPods ctx n nsI ps fs)
    ∧ TableWF (initPods ctx n nsI ps fs)
    ∧ (initPods ctx n nsI ps fs).inode_table.length
        = fs.inode_table.length + 2 * ps.length
    ∧ Table.get (initPods ctx n nsI ps fs).inode_table nsI
        = some (f, cs ++ podInos (podBlocksFrom fs.next_inode ps))
    ∧ (∀ pb ∈ podBlocksFrom fs.next_inode ps,
        Table.get (initPods ctx n nsI ps fs).inode_table pb.ino
            = some (podFile ctx n pb.name pb.ino nsI, [pb.ino + 1])
        ∧ Table.get (initPods ctx n nsI ps fs).inode_table (pb.ino + 1)
            = some ((podFile ctx n pb.name pb.ino nsI).create_definition_file (pb.ino + 1),
                []))
    ∧ (∀ j, j ≠ nsI → j ∉ pairKeys (podInos (podBlocksFrom fs.next_inode ps)) →
        Table.get (initPods ctx n nsI ps fs).inode_table j
          = Table.get fs.inode_table j) := by
  induction ps generalizing fs cs with
  | nil =>
      refine ⟨hn, wf, by simp [initPods], ?_, by simp [podBlocksFrom], ?_⟩
      · simpa [initPods, podBlocksFrom, podInos] using hget
      · intro j _ _
        simp [initPods]
  | cons p ps ih =>
      have hnsIlt : nsI < fs.next_inode := TableWF.lt_of_get_some fs wf nsI (f, cs) hget
      have hb1 := build_resource_file_get_main fs p .Pod nsI ctx n
      have hb2 := build_resource_file_get_def fs p .Pod nsI ctx n
      have hbns : Table.get (build_resource_file fs p .Pod nsI ctx n).2.inode_table nsI
          = some (f, cs) := by
        rw [build_resource_file_get_other fs p .Pod nsI ctx n nsI (by omega) (by omega)]
        exact hget
      set fs₁ := (build_resource_file fs p .Pod nsI ctx n).2 with hfs₁
      set fs₂ := add_child_to_inode fs₁ nsI fs.next_inode with hfs₂
      have hn₂ : KeysNodup fs₂ :=
        add_child_to_inode_nodup fs₁ nsI fs.next_inode
          (build_resource_file_nodup fs p .Pod nsI ctx n hn)
      have wf₂ : TableWF fs₂ :=
        add_child_to_inode_wf fs₁ nsI fs.next_inode
          (build_resource_file_wf fs p .Pod nsI ctx n wf)
      have hget₂ : Table.get fs₂.inode_table nsI = some (f, cs ++ [fs.next_inode]) :=
        add_child_to_inode_get_self fs₁ nsI fs.next_inode f cs hbns
      have hnext₂ : fs₂.next_inode = fs.next_inode + 2 := by
        rw [hfs₂, add_child_to_inode_next, hfs₁, build_resource_file_next]
      have hlen₂ : fs₂.inode_table.length = fs.inode_table.length + 2 := by
        rw [hfs₂, add_child_to_inode_length fs₁ nsI fs.next_inode f cs
          (build_resource_file_nodup fs p .Pod nsI ctx n hn) hbns, hfs₁,
          build_resource_file_length fs p .Pod nsI ctx n wf]
      have hg₂main : Table.get fs₂.inode_table fs.next_inode
          = some (podFile ctx n p fs.next_inode nsI, [fs.next_inode + 1]) := by
        rw [hfs₂, add_child_to_inode_get_other fs₁ nsI fs.next_inode fs.next_inode
          (by omega)]
        exact hb1
      have hg₂def : Table.get fs₂.inode_table (fs.next_inode + 1)
          = some ((podFile ctx n p fs.next_inode nsI).create_definition_file
              (fs.next_inode + 1), []) := by
        rw [hfs₂, add_child_to_inode_get_other fs₁ nsI fs.next_inode (fs.next_inode + 1)
          (by omega)]
        exact hb2
      have hstep : initPods ctx n nsI (p :: ps) fs = initPods ctx n nsI ps fs₂ := rfl
      obtain ⟨ihn, ihwf, ihlen, ihns, ihpods, ihframe⟩ :=
        ih fs₂ (cs ++ [fs.next_inode]) hn₂ wf₂ hget₂
      have hbounds := podBlocksFrom_base_bounds fs₂.next_inode ps
      have hpodsrest : podBlocksFrom fs.next_inode (p :: ps)
          = ⟨fs.next_inode, p⟩ :: podBlocksFrom (fs.next_inode + 2) ps := rfl
      have hkeysrest : ∀ x ∈ pairKeys (podInos (podBlocksFrom fs₂.next_inode ps)),
          fs.next_inode + 2 ≤ x := by
        intro x hx
        rcases (mem_pairKeys _ x).1 hx with ⟨b, hb, hbx⟩
        have := hbounds b hb
        omega
      rw [hstep, hpodsrest]
      refine ⟨ihn, ihwf, ?_, ?_, ?_, ?_⟩
      · rw [ihlen, hlen₂]
        simp only [List.length_cons]
        ring
      · rw [ihns, hnext₂]
        simp [podInos, List.append_assoc]
      · intro pb hpb
        rcases List.mem_cons.1 hpb with hpb | hpb
        · subst hpb
          constructor
          · rw [ihframe fs.next_inode (by omega) ?_]
            · exact hg₂main
            · intro hx
              have := hkeysrest _ hx
              omega
          · rw [ihframe (fs.next_inode + 1) (by omega) ?_]
            · exact hg₂def
            · intro hx
              have := hkeysrest _ hx
              omega
        · rw [← hnext₂] at hpb
          exact ihpods pb hpb
      · intro j hj hjk
        have hj1 : j ≠ fs.next_inode := by
          intro hc
          apply hjk
          rw [hc, mem_pairKeys]
          exact ⟨fs.next_inode, by simp [podInos], Or.inl rfl⟩
        have hj2 : j ≠ fs.next_inode + 1 := by
          intro hc
          apply hjk
          rw [hc, mem_pairKeys]
          exact ⟨fs.next_inode, by simp [podInos], Or.inr rfl⟩
        have hjk₂ : j ∉ pairKeys (podInos (podBlocksFrom fs₂.next_inode ps)) := by
          intro hx
          apply hjk
          rw [mem_pairKeys] at hx ⊢
          obtain ⟨b, hb, hbx⟩ := hx
          refine ⟨b, ?_, hbx⟩
          simp only [podInos, List.map_cons, List.mem_cons]
          right
          rw [hnext₂] at hb
          simpa [podInos] using hb
        rw [ihframe j hj hjk₂, hfs₂, add_child_to_inode_get_other fs₁ nsI fs.next_inode j hj,
          hfs₁, build_resource_file_get_other fs p .Pod nsI ctx n j hj1 hj2]

theorem initNamespaces_spec (k : Kubectl) (ctx : String) (ns : List String)
    (fs : K8sFS) (cf : ResourceFile) (ccs : List Nat)
    (hn : KeysNodup fs) (wf : TableWF fs)
    (hget : Table.get fs.inode_table CONTEXT_INODE = some (cf, ccs)) :
    KeysNodup (initNamespaces k ctx ns fs)
    ∧ TableWF (initNamespaces k ctx ns fs)
    ∧ (initNamespaces k ctx ns fs).next_inode
        = fs.next_inode + 2 * (basesOfBlocks (nsBlocksFrom k ctx fs.next_inode ns)).length
    ∧ (initNamespaces k ctx ns fs).inode_table.length
        = fs.inode_table.length
            + 2 * (basesOfBlocks (nsBlocksFrom k ctx fs.next_inode ns)).length
    ∧ Table.get (initNamespaces k ctx ns fs).inode_table CONTEXT_INODE
        = some (cf, ccs ++ (nsBlocksFrom k ctx fs.next_inode ns).map NsB.ino)
    ∧ (∀ nb ∈ nsBlocksFrom k ctx fs.next_inode ns,
        NsOk (initNamespaces k ctx ns fs) ctx nb)
    ∧ (∀ j, j ≠ CONTEXT_INODE →
        j ∉ pairKeys (basesOfBlocks (nsBlocksFrom k ctx fs.next_inode ns)) →
        Table.get (initNamespaces k ctx ns fs).inode_table j
          = Table.get fs.inode_table j) := by
  induction ns generalizing fs ccs with
  | nil =>
      refine ⟨hn, wf, by simp [initNamespaces, nsBlocksFrom, basesOfBlocks],
        by simp [initNamespaces, nsBlocksFrom, basesOfBlocks], ?_,
        by simp [nsBlocksFrom], ?_⟩
      · simpa [initNamespaces, nsBlocksFrom] using hget
      · intro j _ _
        simp [initNamespaces]
  | cons n ns ih =>
      have hctxlt : CONTEXT_INODE < fs.next_inode :=
        TableWF.lt_of_get_some fs wf CONTEXT_INODE (cf, ccs) hget
      have hb1 := build_resource_file_get_main fs n .Namespace CONTEXT_INODE ctx n
      have hb2 := build_resource_file_get_def fs n .Namespace CONTEXT_INODE ctx n
      have hbctx : Table.get (build_resource_file fs n .Namespace CONTEXT_INODE ctx
          n).2.inode_table CONTEXT_INODE = some (cf, ccs) := by
        rw [build_resource_file_get_other fs n .Namespace CONTEXT_INODE ctx n CONTEXT_INODE
          (by omega) (by omega)]
        exact hget
      set fs₁ := (build_resource_file fs n .Namespace CONTEXT_INODE ctx n).2 with hfs₁
      set fs₂ := add_child_to_inode fs₁ CONTEXT_INODE fs.next_inode with hfs₂
      have hn₂ : KeysNodup fs₂ :=
        add_child_to_inode_nodup fs₁ CONTEXT_INODE fs.next_inode
          (build_resource_file_nodup fs n .Namespace CONTEXT_INODE ctx n hn)
      have wf₂ : TableWF fs₂ :=
        add_child_to_inode_wf fs₁ CONTEXT_INODE fs.next_inode
          (build_resource_file_wf fs n .Namespace CONTEXT_INODE ctx n wf)
      have hctx₂ : Table.get fs₂.inode_table CONTEXT_INODE
          = some (cf, ccs ++ [fs.next_inode]) :=
        add_child_to_inode_get_self fs₁ CONTEXT_INODE fs.next_inode cf ccs hbctx
      have hnext₂ : fs₂.next_inode = fs.next_inode + 2 := by
        rw [hfs₂, add_child_to_inode_next, hfs₁, build_resource_file_next]
      have hlen₂ : fs₂.inode_table.length = fs.inode_table.length + 2 := by
        rw [hfs₂, add_child_to_inode_length fs₁ CONTEXT_INODE fs.next_inode cf ccs
          (build_resource_file_nodup fs n .Namespace CONTEXT_INODE ctx n hn) hbctx, hfs₁,
          build_resource_file_length fs n .Namespace CONTEXT_INODE ctx n wf]
      have hg₂main : Table.get fs₂.inode_table fs.next_inode
          = some (nsFile ctx n fs.next_inode, [fs.next_inode + 1]) := by
        rw [hfs₂, add_child_to_inode_get_other fs₁ CONTEXT_INODE fs.next_inode fs.next_inode
          (by omega)]
        exact hb1
      have hg₂def : Table.get fs₂.inode_table (fs.next_inode + 1)
          = some ((nsFile ctx n fs.next_inode).create_definition_file (fs.next_inode + 1),
              []) := by
        rw [hfs₂, add_child_to_inode_get_other fs₁ CONTEXT_INODE fs.next_inode
          (fs.next_inode + 1) (by omega)]
        exact hb2
      set P := k.pods ctx n with hP
      set fs₃ := initPods ctx n fs.next_inode P fs₂ with hfs₃
      obtain ⟨hn₃, wf₃, hlen₃, hgns₃, hpods₃, hframe₃⟩ :=
        initPods_spec ctx n fs.next_inode P fs₂ (nsFile ctx n fs.next_inode)
          [fs.next_inode + 1] hn₂ wf₂ hg₂main
      have hnext₃ : fs₃.next_inode = fs.next_inode + 2 + 2 * P.length := by
        rw [hfs₃, initPods_next, hnext₂]
      have hpodb := podBlocksFrom_base_bounds fs₂.next_inode P
      have hpodkeys_high : ∀ x ∈ pairKeys (podInos (podBlocksFrom fs₂.next_inode P)),
          fs.next_inode + 2 ≤ x ∧ x < fs.next_inode + 2 + 2 * P.length := by
        intro x hx
        rcases (mem_pairKeys _ x).1 hx with ⟨b, hb, hbx⟩
        have := hpodb b hb
        omega
      have hctx₃ : Table.get fs₃.inode_table CONTEXT_INODE
          = some (cf, ccs ++ [fs.next_inode]) := by
        rw [hfs₃, hframe₃ CONTEXT_INODE (by omega) ?_]
        · exact hctx₂
        · intro hx
          have := hpodkeys_high _ hx
          omega
      have hg₃def : Table.get fs₃.inode_table (fs.next_inode + 1)
          = some ((nsFile ctx n fs.next_inode).create_definition_file (fs.next_inode + 1),
              []) := by
        rw [hfs₃, hframe₃ (fs.next_inode + 1) (by omega) ?_]
        · exact hg₂def
        · intro hx
          have := hpodkeys_high _ hx
          omega
      obtain ⟨ihn, ihwf, ihnext, ihlen, ihctx, ihblocks, ihframe⟩ :=
        ih fs₃ (ccs ++ [fs.next_inode]) hn₃ wf₃ hctx₃
      have hblockscons : nsBlocksFrom k ctx fs.next_inode (n :: ns)
          = ⟨fs.next_inode, n, podBlocksFrom (fs.next_inode + 2) P⟩
              :: nsBlocksFrom k ctx (fs.next_inode + 2 + 2 * P.length) ns := rfl
      have hstep : initNamespaces k ctx (n :: ns) fs = initNamespaces k ctx ns fs₃ := rfl
      have htail_bounds := nsBlocksFrom_base_bounds k ctx fs₃.next_inode ns
      have htailkeys_high : ∀ x ∈ pairKeys (basesOfBlocks (nsBlocksFrom k ctx
          fs₃.next_inode ns)), fs₃.next_inode ≤ x := by
        intro x hx
        rcases (mem_pairKeys _ x).1 hx with ⟨b, hb, hbx⟩
        have := htail_bounds b hb
        omega
      have hlentotal : (basesOfBlocks (nsBlocksFrom k ctx fs.next_inode (n :: ns))).length
          = 1 + P.length
              + (basesOfBlocks (nsBlocksFrom k ctx fs₃.next_inode ns)).length := by
        rw [hblockscons]
        simp only [basesOfBlocks, List.length_cons, List.length_append, podInos,
          List.length_map, podBlocksFrom_length]
        rw [hnext₃]
        omega
      have hmem_cons_keys : ∀ x, x ∈ pairKeys (basesOfBlocks (nsBlocksFrom k ctx
          fs₃.next_inode ns)) →
          x ∈ pairKeys (basesOfBlocks (nsBlocksFrom k ctx fs.next_inode (n :: ns))) := by
        intro x hx
        rw [mem_pairKeys] at hx ⊢
        obtain ⟨b, hb, hbx⟩ := hx
        refine ⟨b, ?_, hbx⟩
        rw [hblockscons]
        simp only [basesOfBlocks, List.mem_cons, List.mem_append]
        rw [hnext₃] at hb
        exact Or.inr (Or.inr hb)
      have hmem_pod_keys : ∀ x, x ∈ pairKeys (podInos (podBlocksFrom fs₂.next_inode P)) →
          x ∈ pairKeys (basesOfBlocks (nsBlocksFrom k ctx fs.next_inode (n :: ns))) := by
        intro x hx
        rw [mem_pairKeys] at hx ⊢
        obtain ⟨b, hb, hbx⟩ := hx
        refine ⟨b, ?_, hbx⟩
        rw [hblockscons]
        simp only [basesOfBlocks, List.mem_cons, List.mem_append]
        rw [hnext₂] at hb
        exact Or.inr (Or.inl hb)
      have hmem_head_key : fs.next_inode
          ∈ pairKeys (basesOfBlocks (nsBlocksFrom k ctx fs.next_inode (n :: ns)))
          ∧ fs.next_inode + 1
              ∈ pairKeys (basesOfBlocks (nsBlocksFrom k ctx fs.next_inode (n :: ns))) := by
        constructor <;>
          · rw [mem_pairKeys]
            refine ⟨fs.next_inode, ?_, by simp⟩
            rw [hblockscons]
            simp [basesOfBlocks]
      rw [hstep, hblockscons]
      refine ⟨ihn, ihwf, ?_, ?_, ?_, ?_, ?_⟩
      · rw [ihnext, ← hblockscons, hlentotal, hnext₃]
        ring
      · rw [ihlen, ← hblockscons, hlentotal, hlen₃, hlen₂, hnext₃]
        ring
      · rw [ihctx]
        rw [hnext₃]
        simp [List.append_assoc]
      · intro nb hnb
        rcases List.mem_cons.1 hnb with hnb | hnb
        · subst hnb
          refine ⟨?_, ?_, ?_⟩
          · rw [ihframe fs.next_inode (by omega) ?_]
            · rw [hfs₃, hgns₃, hnext₂]
              rfl
            · intro hx
              have := htailkeys_high _ hx
              omega
          · rw [ihframe (fs.next_inode + 1) (by omega) ?_]
            · exact hg₃def
            · intro hx
              have := htailkeys_high _ hx
              omega
          · intro pb hpb
            simp only at hpb
            have hpb' : pb ∈ podBlocksFrom fs₂.next_inode P := by
              rw [hnext₂]
              exact hpb
            have hpbb := hpodb pb.ino (by
              simp only [podInos, List.mem_map]
              exact ⟨pb, hpb', rfl⟩)
            obtain ⟨hpm, hpd⟩ := hpods₃ pb hpb'
            constructor
            · rw [ihframe pb.ino (by omega) ?_]
              · rw [hfs₃]
                exact hpm
              · intro hx
                have := htailkeys_high _ hx
                rw [hnext₃] at this
                rw [hnext₂] at hpbb
                omega
            · rw [ihframe (pb.ino + 1) (by omega) ?_]
              · rw [hfs₃]
                exact hpd
              · intro hx
                have := htailkeys_high _ hx
                rw [hnext₃] at this
                rw [hnext₂] at hpbb
                omega
        · have := ihblocks nb (by rw [hnext₃]; exact hnb)
          exact this
      · intro j hjc hjk
        rw [← hblockscons] at hjk
        have hj1 : j ≠ fs.next_inode := fun hc => hjk (hc ▸ hmem_head_key.1)
        have hj2 : j ≠ fs.next_inode + 1 := fun hc => hjk (hc ▸ hmem_head_key.2)
        have hjp : j ∉ pairKeys (podInos (podBlocksFrom fs₂.next_inode P)) :=
          fun hx => hjk (hmem_pod_keys j hx)
        have hjt : j ∉ pairKeys (basesOfBlocks (nsBlocksFrom k ctx fs₃.next_inode ns)) :=
          fun hx => hjk (hmem_cons_keys j hx)
        rw [ihframe j hjc hjt, hfs₃, hframe₃ j hj1 hjp, hfs₂,
          add_child_to_inode_get_other fs₁ CONTEXT_INODE fs.next_inode j hjc, hfs₁,
          build_resource_file_get_other fs n .Namespace CONTEXT_INODE ctx n j hj1 hj2]

/-! ### The bootstrap state (root and context entries) -/

theorem initRootCtx_table (k : Kubectl) (fs : K8sFS) :
    (initRootCtx k fs).inode_table
      = Table.insert (Table.insert fs.inode_table ROOT_INODE (rootFile, [CONTEXT_INODE]))
          CONTEXT_INODE (ctxFile k.current_context, []) := rfl

theorem initRootCtx_next (k : Kubectl) (fs : K8sFS) :
    (initRootCtx k fs).next_inode = fs.next_inode := rfl

theorem initRootCtx_new_get_root (k : Kubectl) :
    Table.get (initRootCtx k K8sFS.new).inode_table ROOT_INODE
      = some (rootFile, [CONTEXT_INODE]) := by
  rw [initRootCtx_table, Table.get_insert_ne _ _ _ _ (by decide)]
  exact Table.get_insert_self _ _ _

theorem initRootCtx_new_get_ctx (k : Kubectl) :
    Table.get (initRootCtx k K8sFS.new).inode_table CONTEXT_INODE
      = some (ctxFile k.current_context, []) := by
  rw [initRootCtx_table]
  exact Table.get_insert_self _ _ _

theorem initRootCtx_new_get_other (k : Kubectl) (j : Nat) (h0 : j ≠ ROOT_INODE)
    (h1 : j ≠ CONTEXT_INODE) :
    Table.get (initRootCtx k K8sFS.new).inode_table j = none := by
  rw [initRootCtx_table, Table.get_insert_ne _ _ _ _ h1, Table.get_insert_ne _ _ _ _ h0]
  rfl

theorem initRootCtx_new_nodup (k : Kubectl) : KeysNodup (initRootCtx k K8sFS.new) := by
  unfold KeysNodup
  rw [initRootCtx_table]
  exact Table.nodup_insert _ _ _ (Table.nodup_insert _ _ _ (by simp [K8sFS.new]))

theorem initRootCtx_new_wf (k : Kubectl) : TableWF (initRootCtx k K8sFS.new) := by
  intro e he
  rw [initRootCtx_next]
  rw [initRootCtx_table] at he
  rcases Table.mem_insert _ _ _ _ he with he | he
  · subst he
    show CONTEXT_INODE < K8sFS.new.next_inode
    decide
  · rcases Table.mem_insert _ _ _ _ he with he | he
    · subst he
      show ROOT_INODE < K8sFS.new.next_inode
      decide
    · simp [K8sFS.new] at he

theorem initRootCtx_new_length (k : Kubectl) :
    (initRootCtx k K8sFS.new).inode_table.length = 2 := rfl

theorem initialize_eq (k : Kubectl) (fs : K8sFS) :
    initialize_inode_table k fs
      = initNamespaces k k.current_context (k.namespaces k.current_context)
          (initRootCtx k fs) := rfl

/-- C6: after initialization with N namespaces where namespace i has P_i
pods, the node table holds exactly `2 + Σ_i (2 + 2 P_i)` entries, the
abstract layout's namespace blocks are in bijection with the backend's
namespace list (same names, and their pod blocks carry the backend's pod
names), and every Namespace entry's child list is exactly its Definition
inode followed by its Pods' inodes (with the Definition and Pod entries in
place). -/
theorem initialize_node_count_and_namespace_children (k : Kubectl) :
    (initialize_inode_table k K8sFS.new).inode_table.length
        = 2 + ((k.namespaces k.current_context).map
            (fun n => 2 + 2 * (k.pods k.current_context n).length)).sum
    ∧ (absOfInit k).nss.map NsB.name = k.namespaces k.current_context
    ∧ ∀ nb ∈ (absOfInit k).nss,
        nb.pods.map PodB.name = k.pods k.current_context nb.name
        ∧ NsOk (initialize_inode_table k K8sFS.new) k.current_context nb := by
  obtain ⟨hn, wf, hnext, hlen, hctx, hblocks, hframe⟩ :=
    initNamespaces_spec k k.current_context (k.namespaces k.current_context)
      (initRootCtx k K8sFS.new) (ctxFile k.current_context) []
      (initRootCtx_new_nodup k) (initRootCtx_new_wf k) (initRootCtx_new_get_ctx k)
  have h2 : (initRootCtx k K8sFS.new).next_inode = 2 := rfl
  rw [h2] at hlen hblocks
  refine ⟨?_, ?_, ?_⟩
  · rw [initialize_eq, hlen, initRootCtx_new_length,
      basesOfBlocks_nsBlocksFrom_length k k.current_context 2
        (k.namespaces k.current_context)]
  · exact nsBlocksFrom_names k k.current_context 2 (k.namespaces k.current_context)
  · intro nb hnb
    refine ⟨nsBlocksFrom_pod_names k k.current_context 2 (k.namespaces k.current_context)
      nb hnb, ?_⟩
    rw [initialize_eq]
    exact hblocks nb hnb

/-- C6 witness: the §8 scenario has 8 = 2 + (2 + 2·1) + (2 + 2·0) table
entries, and namespace `default` (inode 2) has child list `[3, 4]`:
its definition file at inode 3 followed by pod `nginx` at inode 4. -/
theorem initialize_node_count_and_namespace_children_witness :
    demoFs.inode_table.length = 8
    ∧ NsOk demoFs "ctx" ⟨2, "default", [⟨4, "nginx"⟩]⟩ := by
  have h := initialize_node_count_and_namespace_children demoK
  refine ⟨?_, ?_⟩
  · rw [show demoFs = initialize_inode_table demoK K8sFS.new from rfl, h.1]
    decide
  · exact (h.2.2 ⟨2, "default", [⟨4, "nginx"⟩]⟩ (by decide)).2

/-! ### Identifier-allocation traces -/

theorem clean_up_inode_next (fs : K8sFS) (i p : Nat) :
    (clean_up_inode fs i p).next_inode = fs.next_inode := by
  unfold clean_up_inode
  cases h : Table.get (Table.removeKey fs.inode_table i) p with
  | none => simp [h]
  | some e =>
      obtain ⟨f, cs⟩ := e
      simp [h]

theorem rmdir_snd_next (k : Kubectl) (fs : K8sFS) (parent : Nat) (name : String) :
    (rmdir k fs parent name).2.next_inode = fs.next_inode := by
  unfold rmdir
  by_cases hp : parent = CONTEXT_INODE
  · subst hp
    rw [if_pos rfl]
    cases hf : get_file_by_name fs name CONTEXT_INODE with
    | none => rfl
    | some f =>
        simp only
        by_cases hd : f.delete k = true
        · rw [if_neg (fun hc => hc hd)]
          by_cases hg : f.inode > 0 ∧ CONTEXT_INODE > 0
          · rw [if_pos hg]
            exact clean_up_inode_next fs f.inode f.parent
          · rw [if_neg hg]
        · rw [if_pos hd]
  · rw [if_neg hp]

theorem build_resource_file_eta (fs : K8sFS) (name : String) (rt : ResourceType)
    (parent : Nat) (ctx namespc : String) :
    build_resource_file fs name rt parent ctx namespc
      = (fs.next_inode, (build_resource_file fs name rt parent ctx namespc).2) := rfl

theorem mkdir_snd_of_success (k : Kubectl) (fs : K8sFS) (name : String)
    (cf : ResourceFile) (ccs : List Nat)
    (hctx : Table.get fs.inode_table CONTEXT_INODE = some (cf, ccs))
    (hok : k.create_namespace name cf.name = true) :
    (mkdir k fs CONTEXT_INODE name).2
      = add_child_to_inode (build_resource_file fs name .Namespace CONTEXT_INODE cf.name
          name).2 CONTEXT_INODE fs.next_inode := by
  unfold mkdir
  rw [if_pos rfl]
  simp only [hctx]
  rw [if_neg (fun hc => hc hok)]
  rw [build_resource_file_eta]
  cases hg : Table.get (add_child_to_inode (build_resource_file fs name .Namespace
      CONTEXT_INODE cf.name name).2 CONTEXT_INODE fs.next_inode).inode_table
      fs.next_inode with
  | none => simp [hg]
  | some e =>
      obtain ⟨f, cs⟩ := e
      simp [hg]

theorem applyOp_next (k : Kubectl) (fs : K8sFS) (op : FsOp) :
    (applyOp k fs op).next_inode = fs.next_inode + (opAllocList k fs op).length
    ∧ opAllocList k fs op = List.range' fs.next_inode (opAllocList k fs op).length := by
  cases op with
  | rmdirOp parent name =>
      refine ⟨?_, rfl⟩
      show (rmdir k fs parent name).2.next_inode = fs.next_inode + 0
      rw [rmdir_snd_next]
      omega
  | mkdirOp parent name =>
      by_cases hp : parent = CONTEXT_INODE
      · subst hp
        cases hctx : Table.get fs.inode_table CONTEXT_INODE with
        | none =>
            constructor
            · show (mkdir k fs CONTEXT_INODE name).2.next_inode = _
              have : mkdir k fs CONTEXT_INODE name = (MkdirReply.panicked, fs) := by
                simp [mkdir, hctx]
              rw [this]
              simp [opAllocList, hctx]
            · simp [opAllocList, hctx]
        | some e =>
            obtain ⟨cf, ccs⟩ := e
            by_cases hc : k.create_namespace name cf.name = true
            · constructor
              · show (mkdir k fs CONTEXT_INODE name).2.next_inode = _
                rw [mkdir_snd_of_success k fs name cf ccs hctx hc,
                  add_child_to_inode_next, build_resource_file_next]
                simp [opAllocList, hctx, hc, buildAllocs]
              · simp [opAllocList, hctx, hc, buildAllocs, List.range'_succ]
            · have hc' : k.create_namespace name cf.name = false := by
                cases hcc : k.create_namespace name cf.name
                · rfl
                · exact absurd hcc hc
              constructor
              · show (mkdir k fs CONTEXT_INODE name).2.next_inode = _
                have : mkdir k fs CONTEXT_INODE name = (MkdirReply.error EPERM, fs) := by
                  simp [mkdir, hctx, hc']
                rw [this]
                simp [opAllocList, hctx, hc']
              · simp [opAllocList, hctx, hc']
      · constructor
        · show (mkdir k fs parent name).2.next_inode = _
          have : mkdir k fs parent name = (MkdirReply.error EPERM, fs) := by
            simp [mkdir, hp]
          rw [this]
          simp [opAllocList, hp]
        · simp [opAllocList, hp]

theorem opsAllocTrace_eq (k : Kubectl) (ops : List FsOp) : ∀ fs : K8sFS,
    fs.next_inode ≤ (runOps k fs ops).next_inode
    ∧ opsAllocTrace k fs ops
        = List.range' fs.next_inode ((runOps k fs ops).next_inode - fs.next_inode) := by
  induction ops with
  | nil =>
      intro fs
      exact ⟨Nat.le_refl _, by simp [opsAllocTrace, runOps]⟩
  | cons op ops ih =>
      intro fs
      obtain ⟨hle, htr⟩ := ih (applyOp k fs op)
      obtain ⟨hnext, hallocs⟩ := applyOp_next k fs op
      have hrun : runOps k fs (op :: ops) = runOps k (applyOp k fs op) ops := rfl
      have hstep : opsAllocTrace k fs (op :: ops)
          = opAllocList k fs op ++ opsAllocTrace k (applyOp k fs op) ops := rfl
      constructor
      · rw [hrun]
        omega
      · have happ := List.range'_append fs.next_inode (opAllocList k fs op).length
          ((runOps k (applyOp k fs op) ops).next_inode - (applyOp k fs op).next_inode) 1
        rw [Nat.one_mul] at happ
        rw [hnext] at happ hle
        rw [hstep, htr, hrun, hallocs, hnext, happ]
        congr 1
        omega

theorem initPodsAllocs_eq (ctx n : String) (nsI : Nat) (ps : List String)
    (fs : K8sFS) :
    initPodsAllocs ctx n nsI ps fs = List.range' fs.next_inode (2 * ps.length) := by
  induction ps generalizing fs with
  | nil => rfl
  | cons p ps ih =>
      have hstep : initPodsAllocs ctx n nsI (p :: ps) fs
          = buildAllocs fs ++ initPodsAllocs ctx n nsI ps
              (add_child_to_inode (build_resource_file fs p .Pod nsI ctx n).2 nsI
                fs.next_inode) := rfl
      rw [hstep, ih]
      rw [add_child_to_inode_next, build_resource_file_next]
      have h3 : 2 * (p :: ps).length = 2 * ps.length + 1 + 1 := by
        simp only [List.length_cons]
        ring
      rw [h3, List.range'_succ, List.range'_succ]
      rfl

theorem initNamespaces_next_pure (k : Kubectl) (ctx : String) (ns : List String)
    (fs : K8sFS) :
    (initNamespaces k ctx ns fs).next_inode
      = fs.next_inode + (ns.map (fun n => 2 + 2 * (k.pods ctx n).length)).sum := by
  induction ns generalizing fs with
  | nil => simp [initNamespaces]
  | cons n ns ih =>
      have hstep : initNamespaces k ctx (n :: ns) fs
          = initNamespaces k ctx ns
              (initPods ctx n fs.next_inode (k.pods ctx n)
                (add_child_to_inode (build_resource_file fs n .Namespace CONTEXT_INODE ctx
                  n).2 CONTEXT_INODE fs.next_inode)) := rfl
      rw [hstep, ih, initPods_next, add_child_to_inode_next, build_resource_file_next]
      simp only [List.map_cons, List.sum_cons]
      ring

theorem initNamespacesAllocs_eq (k : Kubectl) (ctx : String) (ns : List String)
    (fs : K8sFS) :
    initNamespacesAllocs k ctx ns fs
      = List.range' fs.next_inode
          ((ns.map (fun n => 2 + 2 * (k.pods ctx n).length)).sum) := by
  induction ns generalizing fs with
  | nil => rfl
  | cons n ns ih =>
      have hstep : initNamespacesAllocs k ctx (n :: ns) fs
          = buildAllocs fs
              ++ initPodsAllocs ctx n fs.next_inode (k.pods ctx n)
                  (add_child_to_inode (build_resource_file fs n .Namespace CONTEXT_INODE
                    ctx n).2 CONTEXT_INODE fs.next_inode)
              ++ initNamespacesAllocs k ctx ns
                  (initPods ctx n fs.next_inode (k.pods ctx n)
                    (add_child_to_inode (build_resource_file fs n .Namespace CONTEXT_INODE
                      ctx n).2 CONTEXT_INODE fs.next_inode)) := rfl
      rw [hstep, ih, initPodsAllocs_eq, initPods_next, add_child_to_inode_next,
        build_resource_file_next]
      have hglue1 : buildAllocs fs
          ++ List.range' (fs.next_inode + 2) (2 * (k.pods ctx n).length)
          = List.range' fs.next_inode (2 * (k.pods ctx n).length + 1 + 1) := by
        rw [List.range'_succ, List.range'_succ]
        rfl
      rw [List.append_assoc, ← List.append_assoc (buildAllocs fs), hglue1]
      have happ := List.range'_append fs.next_inode (2 * (k.pods ctx n).length + 1 + 1)
        ((ns.map (fun n => 2 + 2 * (k.pods ctx n).length)).sum) 1
      rw [Nat.one_mul] at happ
      have harg : fs.next_inode + (2 * (k.pods ctx n).length + 1 + 1)
          = fs.next_inode + 2 + 2 * (k.pods ctx n).length := by omega
      rw [harg] at happ
      rw [happ]
      congr 1
      simp only [List.map_cons, List.sum_cons]
      ring

/-- C9: across initialization and every sequence of make- and
remove-directory operations, the inode allocator hands out a strictly
increasing sequence —
hence all identifiers ever allocated are pairwise distinct and none is
reused after its node is deleted — and the fixed Root (0) and Context (1)
identifiers lie strictly below every dynamically allocated one. -/
theorem inode_allocation_strictly_increasing (k : Kubectl) (ops : List FsOp) :
    List.Pairwise (fun x y => x < y)
        (initAllocList k ++ opsAllocTrace k (initialize_inode_table k K8sFS.new) ops)
    ∧ (∀ x ∈ initAllocList k ++ opsAllocTrace k (initialize_inode_table k K8sFS.new) ops,
        ROOT_INODE < x ∧ CONTEXT_INODE < x)
    ∧ ROOT_INODE < CONTEXT_INODE := by
  have hinit : initAllocList k
      = List.range' 2 (((k.namespaces k.current_context).map
          (fun n => 2 + 2 * (k.pods k.current_context n).length)).sum) := by
    unfold initAllocList
    rw [initNamespacesAllocs_eq]
    rfl
  have hnexti : (initialize_inode_table k K8sFS.new).next_inode
      = 2 + (((k.namespaces k.current_context).map
          (fun n => 2 + 2 * (k.pods k.current_context n).length)).sum) := by
    rw [initialize_eq, initNamespaces_next_pure]
    rfl
  obtain ⟨hle, htr⟩ := opsAllocTrace_eq k ops (initialize_inode_table k K8sFS.new)
  have hcat : initAllocList k
      ++ opsAllocTrace k (initialize_inode_table k K8sFS.new) ops
      = List.range' 2
          ((runOps k (initialize_inode_table k K8sFS.new) ops).next_inode - 2) := by
    rw [hinit, htr, hnexti]
    have happ := List.range'_append 2
      (((k.namespaces k.current_context).map
        (fun n => 2 + 2 * (k.pods k.current_context n).length)).sum)
      ((runOps k (initialize_inode_table k K8sFS.new) ops).next_inode
        - (2 + ((k.namespaces k.current_context).map
            (fun n => 2 + 2 * (k.pods k.current_context n).length)).sum)) 1
    rw [Nat.one_mul] at happ
    rw [happ]
    congr 1
    rw [hnexti] at hle
    omega
  rw [hcat]
  refine ⟨List.pairwise_lt_range' _ _ 1, ?_, by decide⟩
  intro x hx
  rw [List.mem_range'_1] at hx
  have h0 : ROOT_INODE = 0 := rfl
  have h1 : CONTEXT_INODE = 1 := rfl
  omega

/-- C9 witness: in the §8 scenario followed by a successful `mkdir web` and a
`rmdir default`, the allocation trace is exactly `[2, 3, 4, 5, 6, 7, 8, 9]`
(initialization allocates 2–7, the mkdir allocates 8 and 9, the rmdir
allocates nothing), strictly increasing. -/
theorem inode_allocation_strictly_increasing_witness :
    List.Pairwise (fun x y => x < y)
        (initAllocList demoK ++ opsAllocTrace demoK
          (initialize_inode_table demoK K8sFS.new)
          [FsOp.mkdirOp CONTEXT_INODE "web", FsOp.rmdirOp CONTEXT_INODE "default"])
    ∧ initAllocList demoK ++ opsAllocTrace demoK
          (initialize_inode_table demoK K8sFS.new)
          [FsOp.mkdirOp CONTEXT_INODE "web", FsOp.rmdirOp CONTEXT_INODE "default"]
        = [2, 3, 4, 5, 6, 7, 8, 9] :=
  ⟨(inode_allocation_strictly_increasing demoK
      [FsOp.mkdirOp CONTEXT_INODE "web", FsOp.rmdirOp CONTEXT_INODE "default"]).1,
    by decide⟩

/-! ### Abstract-layout helpers for the structural invariant -/

theorem basesOfBlocks_append (l₁ l₂ : List NsB) :
    basesOfBlocks (l₁ ++ l₂) = basesOfBlocks l₁ ++ basesOfBlocks l₂ := by
  induction l₁ with
  | nil => rfl
  | cons nb l₁ ih => simp [basesOfBlocks, ih]

theorem pairKeys_append (l₁ l₂ : List Nat) :
    pairKeys (l₁ ++ l₂) = pairKeys l₁ ++ pairKeys l₂ := by
  induction l₁ with
  | nil => rfl
  | cons b l₁ ih => simp [pairKeys, ih]

theorem ino_mem_basesOfBlocks (l : List NsB) (nb : NsB) (h : nb ∈ l) :
    nb.ino ∈ basesOfBlocks l := by
  induction l with
  | nil => simp at h
  | cons nb₀ l ih =>
      rcases List.mem_cons.1 h with h | h
      · subst h
        simp [basesOfBlocks]
      · simp only [basesOfBlocks, List.mem_cons, List.mem_append]
        exact Or.inr (Or.inr (ih h))

theorem pod_ino_mem_basesOfBlocks (l : List NsB) (nb : NsB) (pb : PodB)
    (h : nb ∈ l) (hp : pb ∈ nb.pods) : pb.ino ∈ basesOfBlocks l := by
  induction l with
  | nil => simp at h
  | cons nb₀ l ih =>
      rcases List.mem_cons.1 h with h | h
      · subst h
        simp only [basesOfBlocks, List.mem_cons, List.mem_append]
        exact Or.inr (Or.inl (by simp only [podInos, List.mem_map]; exact ⟨pb, hp, rfl⟩))
      · simp only [basesOfBlocks, List.mem_cons, List.mem_append]
        exact Or.inr (Or.inr (ih h))

theorem mem_basesOfBlocks_iff (l : List NsB) (x : Nat) :
    x ∈ basesOfBlocks l
      ↔ ∃ nb ∈ l, x = nb.ino ∨ ∃ pb ∈ nb.pods, x = pb.ino := by
  induction l with
  | nil => simp [basesOfBlocks]
  | cons nb₀ l ih =>
      simp only [basesOfBlocks, List.mem_cons, List.mem_append, ih, podInos,
        List.mem_map]
      constructor
      · rintro (h | ⟨pb, hpb, hx⟩ | ⟨nb, hnb, hx⟩)
        · exact ⟨nb₀, Or.inl rfl, Or.inl h⟩
        · exact ⟨nb₀, Or.inl rfl, Or.inr ⟨pb, hpb, hx.symm⟩⟩
        · exact ⟨nb, Or.inr hnb, hx⟩
      · rintro ⟨nb, (hnb | hnb), hx⟩
        · subst hnb
          rcases hx with hx | ⟨pb, hpb, hx⟩
          · exact Or.inl hx
          · exact Or.inr (Or.inl ⟨pb, hpb, hx.symm⟩)
        · exact Or.inr (Or.inr ⟨nb, hnb, hx⟩)

/-- Distinct-occurrence facts extracted from distinctness of the base
inodes: a base inode determines its namespace block, is never both a
namespace and a pod inode, and determines its pod block. -/
theorem basesOfBlocks_occurrences (l : List NsB) (hnd : (basesOfBlocks l).Nodup) :
    (∀ nb ∈ l, ∀ nb' ∈ l, nb.ino = nb'.ino → nb = nb')
    ∧ (∀ nb ∈ l, ∀ nb' ∈ l, ∀ pb ∈ nb'.pods, nb.ino = pb.ino → False)
    ∧ (∀ nb ∈ l, ∀ nb' ∈ l, ∀ pb ∈ nb.pods, ∀ pb' ∈ nb'.pods,
        pb.ino = pb'.ino → nb = nb' ∧ pb = pb') := by
  induction l with
  | nil => exact ⟨by simp, by simp, by simp⟩
  | cons nb₀ l ih =>
      simp only [basesOfBlocks, List.nodup_cons, List.nodup_append, List.mem_append] at hnd
      obtain ⟨hhead, hpods₀, hrest, hdisj⟩ := hnd
      obtain ⟨ihA, ihB, ihC⟩ := ih hrest
      have hheadpods : nb₀.ino ∉ podInos nb₀.pods := fun hc => hhead (Or.inl hc)
      have hheadrest : nb₀.ino ∉ basesOfBlocks l := fun hc => hhead (Or.inr hc)
      refine ⟨?_, ?_, ?_⟩
      · rintro nb hnb nb' hnb' heq
        rcases List.mem_cons.1 hnb with h1 | h1
        · rcases List.mem_cons.1 hnb' with h2 | h2
          · rw [h1, h2]
          · exfalso
            apply hheadrest
            rw [← h1, heq]
            exact ino_mem_basesOfBlocks l nb' h2
        · rcases List.mem_cons.1 hnb' with h2 | h2
          · exfalso
            apply hheadrest
            rw [← h2, ← heq]
            exact ino_mem_basesOfBlocks l nb h1
          · exact ihA nb h1 nb' h2 heq
      · rintro nb hnb nb' hnb' pb hpb heq
        rcases List.mem_cons.1 hnb with h1 | h1
        · rcases List.mem_cons.1 hnb' with h2 | h2
          · apply hheadpods
            rw [← h1, heq]
            simp only [podInos, List.mem_map]
            exact ⟨pb, (h2.trans h1.symm) ▸ hpb, rfl⟩
          · apply hheadrest
            rw [← h1, heq]
            exact pod_ino_mem_basesOfBlocks l nb' pb h2 hpb
        · rcases List.mem_cons.1 hnb' with h2 | h2
          · refine hdisj ?_ (ino_mem_basesOfBlocks l nb h1)
            rw [heq]
            simp only [podInos, List.mem_map]
            exact ⟨pb, h2 ▸ hpb, rfl⟩
          · exact ihB nb h1 nb' h2 pb hpb heq
      · rintro nb hnb nb' hnb' pb hpb pb' hpb' heq
        rcases List.mem_cons.1 hnb with h1 | h1
        · rcases List.mem_cons.1 hnb' with h2 | h2
          · refine ⟨h1.trans h2.symm, ?_⟩
            have hinj : ∀ x ∈ nb₀.pods, ∀ y ∈ nb₀.pods, PodB.ino x = PodB.ino y → x = y :=
              fun x hx y hy => List.inj_on_of_nodup_map hpods₀ hx hy
            exact hinj pb (h1 ▸ hpb) pb' (h2 ▸ hpb') heq
          · exfalso
            refine hdisj ?_ (pod_ino_mem_basesOfBlocks l nb' pb' h2 hpb')
            rw [← heq]
            simp only [podInos, List.mem_map]
            exact ⟨pb, h1 ▸ hpb, rfl⟩
        · rcases List.mem_cons.1 hnb' with h2 | h2
          · exfalso
            refine hdisj ?_ (pod_ino_mem_basesOfBlocks l nb pb h1 hpb)
            rw [heq]
            simp only [podInos, List.mem_map]
            exact ⟨pb', h2 ▸ hpb', rfl⟩
          · exact ihC nb h1 nb' h2 pb hpb pb' hpb' heq

theorem AbsWF.bases_nodup (a : Abs) (next : Nat) (h : AbsWF a next) :
    (basesOf a).Nodup :=
  h.1.imp (fun hxy => by omega)

theorem AbsWF.base_apart (a : Abs) (next : Nat) (h : AbsWF a next) :
    ∀ b ∈ basesOf a, ∀ b' ∈ basesOf a, b ≠ b' → b + 2 ≤ b' ∨ b' + 2 ≤ b := by
  have hp : List.Pairwise (fun x y => x + 2 ≤ y ∨ y + 2 ≤ x) (basesOf a) :=
    h.1.imp Or.inl
  intro b hb b' hb' hne
  exact hp.forall (fun x y hxy => hxy.symm.imp id id) hb hb' hne

theorem AbsWF.no_succ_base (a : Abs) (next : Nat) (h : AbsWF a next) :
    ∀ b ∈ basesOf a, ∀ b' ∈ basesOf a, b = b' + 1 → False := by
  intro b hb b' hb' heq
  by_cases hne : b = b'
  · omega
  · rcases AbsWF.base_apart a next h b hb b' hb' hne with hc | hc <;> omega

/-! ### The invariant holds initially and is preserved by `mkdir` -/

theorem init_inv (k : Kubectl) :
    Inv (initialize_inode_table k K8sFS.new) (absOfInit k) := by
  obtain ⟨hn, wf, hnext, hlen, hctx, hblocks, hframe⟩ :=
    initNamespaces_spec k k.current_context (k.namespaces k.current_context)
      (initRootCtx k K8sFS.new) (ctxFile k.current_context) []
      (initRootCtx_new_nodup k) (initRootCtx_new_wf k) (initRootCtx_new_get_ctx k)
  have h2 : (initRootCtx k K8sFS.new).next_inode = 2 := rfl
  rw [h2] at hnext hlen hctx hblocks hframe
  have hbb := nsBlocksFrom_base_bounds k k.current_context 2
    (k.namespaces k.current_context)
  have hnotroot : ROOT_INODE ∉ pairKeys (basesOfBlocks
      (nsBlocksFrom k k.current_context 2 (k.namespaces k.current_context))) := by
    intro hx
    rcases (mem_pairKeys _ _).1 hx with ⟨b, hb, hbx⟩
    have := hbb b hb
    have h0 : ROOT_INODE = 0 := rfl
    omega
  refine ⟨hn, wf, ?_, ?_, ?_, ?_, ?_, ?_⟩
  · rw [initialize_eq, hframe ROOT_INODE (by decide) hnotroot]
    exact initRootCtx_new_get_root k
  · rw [initialize_eq]
    simpa [absOfInit] using hctx
  · intro nb hnb
    rw [initialize_eq]
    exact hblocks nb hnb
  · intro j hj
    simp only [absKeys, List.mem_cons, not_or] at hj
    obtain ⟨h0, h1, hk⟩ := hj
    rw [initialize_eq, hframe j h1 hk]
    exact initRootCtx_new_get_other k j h0 h1
  · rw [initialize_eq, hlen, initRootCtx_new_length]
    rfl
  · refine ⟨nsBlocksFrom_pairwise k k.current_context 2
      (k.namespaces k.current_context), ?_⟩
    intro b hb
    have := hbb b hb
    rw [initialize_eq, hnext]
    omega

theorem mkdir_inv (k : Kubectl) (fs : K8sFS) (a : Abs) (parent : Nat) (name : String)
    (hinv : Inv fs a) :
    ∃ a', Inv (mkdir k fs parent name).2 a' := by
  by_cases hp : parent = CONTEXT_INODE
  · subst hp
    by_cases hc : k.create_namespace name a.ctxName = true
    · have hcc : k.create_namespace name (ctxFile a.ctxName).name = true := hc
      have hsnd := mkdir_snd_of_success k fs name (ctxFile a.ctxName)
        (a.nss.map NsB.ino) hinv.ctx hcc
      have h1 : CONTEXT_INODE < fs.next_inode :=
        TableWF.lt_of_get_some fs hinv.wf CONTEXT_INODE _ hinv.ctx
      have h1' : 1 < fs.next_inode := by simpa [CONTEXT_INODE] using h1
      have hR : ROOT_INODE = 0 := rfl
      have hC : CONTEXT_INODE = 1 := rfl
      set i := fs.next_inode with hi
      set B := (build_resource_file fs name .Namespace CONTEXT_INODE
        (ctxFile a.ctxName).name name).2 with hB
      set FS2 := add_child_to_inode B CONTEXT_INODE i with hFS2
      have hbmain : Table.get B.inode_table i
          = some (ResourceFile.new i CONTEXT_INODE name .Namespace
              (ctxFile a.ctxName).name name, [i + 1]) :=
        build_resource_file_get_main fs name .Namespace CONTEXT_INODE
          (ctxFile a.ctxName).name name
      have hbdef : Table.get B.inode_table (i + 1)
          = some ((ResourceFile.new i CONTEXT_INODE name .Namespace
              (ctxFile a.ctxName).name name).create_definition_file (i + 1), []) :=
        build_resource_file_get_def fs name .Namespace CONTEXT_INODE
          (ctxFile a.ctxName).name name
      have hbctx : Table.get B.inode_table CONTEXT_INODE
          = some (ctxFile a.ctxName, a.nss.map NsB.ino) := by
        rw [hB, build_resource_file_get_other fs name .Namespace CONTEXT_INODE
          (ctxFile a.ctxName).name name CONTEXT_INODE (by omega) (by omega)]
        exact hinv.ctx
      have hctx2 : Table.get FS2.inode_table CONTEXT_INODE
          = some (ctxFile a.ctxName, a.nss.map NsB.ino ++ [i]) :=
        add_child_to_inode_get_self B CONTEXT_INODE i (ctxFile a.ctxName)
          (a.nss.map NsB.ino) hbctx
      have hg2i : Table.get FS2.inode_table i
          = some (ResourceFile.new i CONTEXT_INODE name .Namespace
              (ctxFile a.ctxName).name name, [i + 1]) := by
        rw [hFS2, add_child_to_inode_get_other B CONTEXT_INODE i i (by omega)]
        exact hbmain
      have hg2d : Table.get FS2.inode_table (i + 1)
          = some ((ResourceFile.new i CONTEXT_INODE name .Namespace
              (ctxFile a.ctxName).name name).create_definition_file (i + 1), []) := by
        rw [hFS2, add_child_to_inode_get_other B CONTEXT_INODE i (i + 1) (by omega)]
        exact hbdef
      have hnodup2 : KeysNodup FS2 :=
        add_child_to_inode_nodup B CONTEXT_INODE i
          (build_resource_file_nodup fs name .Namespace CONTEXT_INODE
            (ctxFile a.ctxName).name name hinv.nodup)
      have hwf2 : TableWF FS2 :=
        add_child_to_inode_wf B CONTEXT_INODE i
          (build_resource_file_wf fs name .Namespace CONTEXT_INODE
            (ctxFile a.ctxName).name name hinv.wf)
      have hnext2 : FS2.next_inode = i + 2 := by
        rw [hFS2, add_child_to_inode_next, hB, build_resource_file_next]
      have hlen2 : FS2.inode_table.length = fs.inode_table.length + 2 := by
        rw [hFS2, add_child_to_inode_length B CONTEXT_INODE i (ctxFile a.ctxName)
          (a.nss.map NsB.ino)
          (build_resource_file_nodup fs name .Namespace CONTEXT_INODE
            (ctxFile a.ctxName).name name hinv.nodup) hbctx, hB,
          build_resource_file_length fs name .Namespace CONTEXT_INODE
          (ctxFile a.ctxName).name name hinv.wf]
      have hpres : ∀ j, j ≠ CONTEXT_INODE → j ≠ i → j ≠ i + 1 →
          Table.get FS2.inode_table j = Table.get fs.inode_table j := by
        intro j hj hj1 hj2
        rw [hFS2, add_child_to_inode_get_other B CONTEXT_INODE i j hj, hB,
          build_resource_file_get_other fs name .Namespace CONTEXT_INODE
          (ctxFile a.ctxName).name name j hj1 hj2]
      have hbound : ∀ b ∈ basesOf a, 2 ≤ b ∧ b + 2 ≤ i := hinv.abswf.2
      have hbases' : basesOf ⟨a.ctxName, a.nss ++ [⟨i, name, []⟩]⟩
          = basesOf a ++ [i] := by
        show basesOfBlocks (a.nss ++ [⟨i, name, []⟩]) = basesOfBlocks a.nss ++ [i]
        rw [basesOfBlocks_append]
        rfl
      refine ⟨⟨a.ctxName, a.nss ++ [⟨i, name, []⟩]⟩, ?_⟩
      rw [hsnd]
      refine ⟨hnodup2, hwf2, ?_, ?_, ?_, ?_, ?_, ?_⟩
      · rw [hpres ROOT_INODE (by decide) (by omega) (by omega)]
        exact hinv.root
      · simp only [List.map_append, List.map_cons, List.map_nil]
        exact hctx2
      · intro nb hnb
        rcases List.mem_append.1 hnb with hnb | hnb
        · obtain ⟨ho1, ho2, ho3⟩ := hinv.blocks nb hnb
          have hbase : nb.ino ∈ basesOf a := ino_mem_basesOfBlocks a.nss nb hnb
          obtain ⟨hlow, hhigh⟩ := hbound nb.ino hbase
          refine ⟨?_, ?_, ?_⟩
          · rw [hpres nb.ino (by simp [CONTEXT_INODE]; omega) (by omega) (by omega)]
            exact ho1
          · rw [hpres (nb.ino + 1) (by simp [CONTEXT_INODE]; omega) (by omega) (by omega)]
            exact ho2
          · intro pb hpb
            have hpbase : pb.ino ∈ basesOf a :=
              pod_ino_mem_basesOfBlocks a.nss nb pb hnb hpb
            obtain ⟨hplow, hphigh⟩ := hbound pb.ino hpbase
            obtain ⟨hp1, hp2⟩ := ho3 pb hpb
            refine ⟨?_, ?_⟩
            · rw [hpres pb.ino (by simp [CONTEXT_INODE]; omega) (by omega) (by omega)]
              exact hp1
            · rw [hpres (pb.ino + 1) (by simp [CONTEXT_INODE]; omega) (by omega)
                (by omega)]
              exact hp2
        · rcases List.mem_cons.1 hnb with hnb | hnb
          · subst hnb
            refine ⟨hg2i, hg2d, ?_⟩
            intro pb hpb
            simp at hpb
          · simp at hnb
      · intro j hj
        simp only [absKeys, hbases', pairKeys_append, List.mem_cons, List.mem_append,
          not_or] at hj
        obtain ⟨h0, hcx, hk, hnew⟩ := hj
        simp only [pairKeys, List.mem_cons] at hnew
        push_neg at hnew
        obtain ⟨hji, hji1, -⟩ := hnew
        rw [hpres j hcx hji hji1]
        apply hinv.outside
        simp only [absKeys, List.mem_cons, not_or]
        exact ⟨h0, hcx, hk⟩
      · have hlb : (basesOf ⟨a.ctxName, a.nss ++ [⟨i, name, []⟩]⟩).length
            = (basesOf a).length + 1 := by
          rw [hbases']
          simp
        rw [hlen2, hinv.len, hlb]
        ring
      · refine ⟨?_, ?_⟩
        · rw [hbases']
          rw [List.pairwise_append]
          refine ⟨hinv.abswf.1, by simp, ?_⟩
          intro x hx y hy
          simp only [List.mem_singleton] at hy
          subst hy
          exact (hbound x hx).2
        · intro b hb
          rw [hbases'] at hb
          rw [hnext2]
          rcases List.mem_append.1 hb with hb | hb
          · have := hbound b hb
            omega
          · simp only [List.mem_singleton] at hb
            subst hb
            omega
    · have hc' : k.create_namespace name (ctxFile a.ctxName).name = false := by
        cases hcc : k.create_namespace name a.ctxName
        · exact hcc
        · exact absurd hcc hc
      have heq : mkdir k fs CONTEXT_INODE name = (MkdirReply.error EPERM, fs) := by
        simp [mkdir, hinv.ctx, hc']
      rw [heq]
      exact ⟨a, hinv⟩
  · have heq : mkdir k fs parent name = (MkdirReply.error EPERM, fs) := by
      simp [mkdir, hp]
    rw [heq]
    exact ⟨a, hinv⟩

theorem runMkdirs_inv (k : Kubectl) (ops : List (Nat × String)) :
    ∀ (fs : K8sFS) (a : Abs), Inv fs a → ∃ a', Inv (runMkdirs k fs ops) a' := by
  induction ops with
  | nil => exact fun fs a h => ⟨a, h⟩
  | cons op ops ih =>
      intro fs a h
      obtain ⟨parent, name⟩ := op
      obtain ⟨a₁, h₁⟩ := mkdir_inv k fs a parent name h
      exact ih (mkdir k fs parent name).2 a₁ h₁

/-- Under the invariant, a child-list containment is one of exactly four
shapes: root lists the context, the context lists the namespaces, a
namespace lists its definition and its pods, a pod lists its definition. -/
theorem inv_containment (fs : K8sFS) (a : Abs) (hinv : Inv fs a) :
    ∀ q qf qcs, Table.get fs.inode_table q = some (qf, qcs) → ∀ x, x ∈ qcs →
      (q = ROOT_INODE ∧ x = CONTEXT_INODE)
      ∨ (q = CONTEXT_INODE ∧ ∃ nb ∈ a.nss, x = nb.ino)
      ∨ (∃ nb ∈ a.nss, q = nb.ino ∧ (x = nb.ino + 1 ∨ ∃ pb ∈ nb.pods, x = pb.ino))
      ∨ (∃ nb ∈ a.nss, ∃ pb ∈ nb.pods, q = pb.ino ∧ x = pb.ino + 1) := by
  intro q qf qcs hq x hx
  have hqk : q ∈ absKeys a := by
    by_contra hqk
    rw [hinv.outside q hqk] at hq
    exact Option.noConfusion hq
  simp only [absKeys, List.mem_cons] at hqk
  rcases hqk with hq0 | hq1 | hqp
  · subst hq0
    rw [hinv.root] at hq
    have hcs : qcs = [CONTEXT_INODE] := (congrArg Prod.snd (Option.some.inj hq)).symm
    subst hcs
    simp only [List.mem_singleton] at hx
    exact Or.inl ⟨rfl, hx⟩
  · subst hq1
    rw [hinv.ctx] at hq
    have hcs : qcs = a.nss.map NsB.ino := (congrArg Prod.snd (Option.some.inj hq)).symm
    subst hcs
    obtain ⟨nb, hnb, hni⟩ := List.mem_map.1 hx
    exact Or.inr (Or.inl ⟨rfl, nb, hnb, hni.symm⟩)
  · rcases (mem_pairKeys _ _).1 hqp with ⟨b, hb, hform⟩
    rcases (mem_basesOfBlocks_iff a.nss b).1 hb with ⟨nb, hnb, hbase⟩
    rcases hbase with hbns | ⟨pb, hpb, hbpod⟩
    · obtain ⟨hm, hd, -⟩ := hinv.blocks nb hnb
      rcases hform with hqb | hqb
      · subst hqb
        subst hbns
        rw [hm] at hq
        have hcs : qcs = (nb.ino + 1) :: podInos nb.pods :=
          (congrArg Prod.snd (Option.some.inj hq)).symm
        subst hcs
        rcases List.mem_cons.1 hx with hx | hx
        · exact Or.inr (Or.inr (Or.inl ⟨nb, hnb, rfl, Or.inl hx⟩))
        · obtain ⟨pb, hpb, hpx⟩ := List.mem_map.1 hx
          exact Or.inr (Or.inr (Or.inl ⟨nb, hnb, rfl, Or.inr ⟨pb, hpb, hpx.symm⟩⟩))
      · subst hqb
        subst hbns
        rw [hd] at hq
        have hcs : qcs = [] := (congrArg Prod.snd (Option.some.inj hq)).symm
        subst hcs
        simp at hx
    · obtain ⟨-, -, hpods⟩ := hinv.blocks nb hnb
      obtain ⟨hpm, hpd⟩ := hpods pb hpb
      rcases hform with hqb | hqb
      · subst hqb
        subst hbpod
        rw [hpm] at hq
        have hcs : qcs = [pb.ino + 1] := (congrArg Prod.snd (Option.some.inj hq)).symm
        subst hcs
        simp only [List.mem_singleton] at hx
        exact Or.inr (Or.inr (Or.inr ⟨nb, hnb, pb, hpb, rfl, hx⟩))
      · subst hqb
        subst hbpod
        rw [hpd] at hq
        have hcs : qcs = [] := (congrArg Prod.snd (Option.some.inj hq)).symm
        subst hcs
        simp at hx

/-- Under the invariant, every non-root node sits in exactly one child list;
the containing entry is the node's parent except for definition files, which
sit in the child list of the directory they describe while carrying that
directory's parent. -/
theorem inv_child_membership (fs : K8sFS) (a : Abs) (hinv : Inv fs a) :
    ∀ i f cs, Table.get fs.inode_table i = some (f, cs) → i ≠ ROOT_INODE →
      ∃ p pf pcs, Table.get fs.inode_table p = some (pf, pcs) ∧ i ∈ pcs
        ∧ (∀ q qf qcs, Table.get fs.inode_table q = some (qf, qcs) → i ∈ qcs → q = p)
        ∧ (f.parent = p
            ∨ (f = pf.create_definition_file i ∧ f.parent = pf.parent ∧ p ≠ f.parent)) := by
  have hR : ROOT_INODE = 0 := rfl
  have hC : CONTEXT_INODE = 1 := rfl
  have hnd : (basesOf a).Nodup := AbsWF.bases_nodup a fs.next_inode hinv.abswf
  obtain ⟨occA, occB, occC⟩ := basesOfBlocks_occurrences a.nss hnd
  have hb2 : ∀ b ∈ basesOf a, 2 ≤ b := fun b hb => (hinv.abswf.2 b hb).1
  have hsucc := AbsWF.no_succ_base a fs.next_inode hinv.abswf
  have CONT := inv_containment fs a hinv
  intro i f cs hi h0
  have hik : i ∈ absKeys a := by
    by_contra hik
    rw [hinv.outside i hik] at hi
    exact Option.noConfusion hi
  simp only [absKeys, List.mem_cons] at hik
  rcases hik with hi0 | hi1 | hip
  · exact absurd hi0 h0
  · subst hi1
    refine ⟨ROOT_INODE, rootFile, [CONTEXT_INODE], hinv.root, by simp, ?_, ?_⟩
    · intro q qf qcs hq hmem
      rcases CONT q qf qcs hq CONTEXT_INODE hmem with ⟨hq0, -⟩ | ⟨-, nb, hnb, hni⟩
        | ⟨nb, hnb, -, hforms⟩ | ⟨nb, hnb, pb, hpb, -, hform⟩
      · exact hq0
      · exfalso
        have := hb2 nb.ino (ino_mem_basesOfBlocks a.nss nb hnb)
        omega
      · rcases hforms with hf1 | ⟨pb, hpb, hf1⟩
        · exfalso
          have := hb2 nb.ino (ino_mem_basesOfBlocks a.nss nb hnb)
          omega
        · exfalso
          have := hb2 pb.ino (pod_ino_mem_basesOfBlocks a.nss nb pb hnb hpb)
          omega
      · exfalso
        have := hb2 pb.ino (pod_ino_mem_basesOfBlocks a.nss nb pb hnb hpb)
        omega
    · left
      rw [hinv.ctx] at hi
      have hf : f = ctxFile a.ctxName := (congrArg Prod.fst (Option.some.inj hi)).symm
      rw [hf]
      rfl
  · rcases (mem_pairKeys _ _).1 hip with ⟨b, hb, hform⟩
    rcases (mem_basesOfBlocks_iff a.nss b).1 hb with ⟨nb, hnb, hbase⟩
    rcases hbase with hbns | ⟨pb, hpb, hbpod⟩
    · obtain ⟨hm, hd, -⟩ := hinv.blocks nb hnb
      rcases hform with hib | hib
      · subst hib
        subst hbns
        refine ⟨CONTEXT_INODE, ctxFile a.ctxName, a.nss.map NsB.ino, hinv.ctx,
          List.mem_map.2 ⟨nb, hnb, rfl⟩, ?_, ?_⟩
        · intro q qf qcs hq hmem
          rcases CONT q qf qcs hq nb.ino hmem with ⟨-, hcx⟩ | ⟨hq1, -⟩
            | ⟨nb', hnb', hqn, hforms⟩ | ⟨nb', hnb', pb', hpb', hqp, hform'⟩
          · exfalso
            have := hb2 nb.ino (ino_mem_basesOfBlocks a.nss nb hnb)
            omega
          · exact hq1
          · rcases hforms with hf1 | ⟨pb', hpb', hf1⟩
            · exact absurd hf1 (fun hc => hsucc nb.ino
                (ino_mem_basesOfBlocks a.nss nb hnb) nb'.ino
                (ino_mem_basesOfBlocks a.nss nb' hnb') hc)
            · exact absurd hf1.symm (fun hc => occB nb hnb nb' hnb' pb' hpb' hc.symm)
          · exact absurd hform' (fun hc => hsucc nb.ino
              (ino_mem_basesOfBlocks a.nss nb hnb) pb'.ino
              (pod_ino_mem_basesOfBlocks a.nss nb' pb' hnb' hpb') hc)
        · left
          rw [hm] at hi
          have hf : f = nsFile a.ctxName nb.name nb.ino :=
            (congrArg Prod.fst (Option.some.inj hi)).symm
          rw [hf]
          rfl
      · subst hib
        subst hbns
        refine ⟨nb.ino, nsFile a.ctxName nb.name nb.ino,
          (nb.ino + 1) :: podInos nb.pods, hm, List.mem_cons_self _ _, ?_, ?_⟩
        · intro q qf qcs hq hmem
          rcases CONT q qf qcs hq (nb.ino + 1) hmem with ⟨-, hcx⟩ | ⟨-, nb', hnb', hni⟩
            | ⟨nb', hnb', hqn, hforms⟩ | ⟨nb', hnb', pb', hpb', hqp, hform'⟩
          · exfalso
            have := hb2 nb.ino (ino_mem_basesOfBlocks a.nss nb hnb)
            omega
          · exact absurd hni (fun hc => hsucc nb'.ino
              (ino_mem_basesOfBlocks a.nss nb' hnb') nb.ino
              (ino_mem_basesOfBlocks a.nss nb hnb) hc.symm)
          · rcases hforms with hf1 | ⟨pb', hpb', hf1⟩
            · have hinos : nb.ino = nb'.ino := by omega
              rw [hqn, ← occA nb hnb nb' hnb' hinos]
            · exact absurd hf1 (fun hc => hsucc pb'.ino
                (pod_ino_mem_basesOfBlocks a.nss nb' pb' hnb' hpb') nb.ino
                (ino_mem_basesOfBlocks a.nss nb hnb) hc.symm)
          · have hinos : nb.ino = pb'.ino := by omega
            exact absurd hinos (occB nb hnb nb' hnb' pb' hpb')
        · right
          rw [hd] at hi
          have hf : f = (nsFile a.ctxName nb.name nb.ino).create_definition_file
              (nb.ino + 1) := (congrArg Prod.fst (Option.some.inj hi)).symm
          have := hb2 nb.ino (ino_mem_basesOfBlocks a.nss nb hnb)
          refine ⟨hf, by rw [hf]; rfl, ?_⟩
          rw [hf]
          show nb.ino ≠ CONTEXT_INODE
          omega
    · obtain ⟨hm, hd, hpods⟩ := hinv.blocks nb hnb
      obtain ⟨hpm, hpd⟩ := hpods pb hpb
      rcases hform with hib | hib
      · subst hib
        subst hbpod
        refine ⟨nb.ino, nsFile a.ctxName nb.name nb.ino,
          (nb.ino + 1) :: podInos nb.pods, hm,
          List.mem_cons_of_mem _ (List.mem_map.2 ⟨pb, hpb, rfl⟩), ?_, ?_⟩
        · intro q qf qcs hq hmem
          rcases CONT q qf qcs hq pb.ino hmem with ⟨-, hcx⟩ | ⟨-, nb', hnb', hni⟩
            | ⟨nb', hnb', hqn, hforms⟩ | ⟨nb', hnb', pb', hpb', hqp, hform'⟩
          · exfalso
            have := hb2 pb.ino (pod_ino_mem_basesOfBlocks a.nss nb pb hnb hpb)
            omega
          · exact absurd hni.symm (fun hc => occB nb' hnb' nb hnb pb hpb hc)
          · rcases hforms with hf1 | ⟨pb', hpb', hf1⟩
            · exact absurd hf1 (fun hc => hsucc pb.ino
                (pod_ino_mem_basesOfBlocks a.nss nb pb hnb hpb) nb'.ino
                (ino_mem_basesOfBlocks a.nss nb' hnb') hc)
            · obtain ⟨hnbeq, -⟩ := occC nb hnb nb' hnb' pb hpb pb' hpb' hf1
              rw [hqn, ← hnbeq]
          · exact absurd hform' (fun hc => hsucc pb.ino
              (pod_ino_mem_basesOfBlocks a.nss nb pb hnb hpb) pb'.ino
              (pod_ino_mem_basesOfBlocks a.nss nb' pb' hnb' hpb') hc)
        · left
          rw [hpm] at hi
          have hf : f = podFile a.ctxName nb.name pb.name pb.ino nb.ino :=
            (congrArg Prod.fst (Option.some.inj hi)).symm
          rw [hf]
          rfl
      · subst hib
        subst hbpod
        refine ⟨pb.ino, podFile a.ctxName nb.name pb.name pb.ino nb.ino,
          [pb.ino + 1], hpm, by simp, ?_, ?_⟩
        · intro q qf qcs hq hmem
          rcases CONT q qf qcs hq (pb.ino + 1) hmem with ⟨-, hcx⟩ | ⟨-, nb', hnb', hni⟩
            | ⟨nb', hnb', hqn, hforms⟩ | ⟨nb', hnb', pb', hpb', hqp, hform'⟩
          · exfalso
            have := hb2 pb.ino (pod_ino_mem_basesOfBlocks a.nss nb pb hnb hpb)
            omega
          · exact absurd hni (fun hc => hsucc nb'.ino
              (ino_mem_basesOfBlocks a.nss nb' hnb') pb.ino
              (pod_ino_mem_basesOfBlocks a.nss nb pb hnb hpb) hc.symm)
          · rcases hforms with hf1 | ⟨pb', hpb', hf1⟩
            · have hinos : pb.ino = nb'.ino := by omega
              exact absurd hinos.symm (fun hc => occB nb' hnb' nb hnb pb hpb hc)
            · exact absurd hf1 (fun hc => hsucc pb'.ino
                (pod_ino_mem_basesOfBlocks a.nss nb' pb' hnb' hpb') pb.ino
                (pod_ino_mem_basesOfBlocks a.nss nb pb hnb hpb) hc.symm)
          · have hinos : pb.ino = pb'.ino := by omega
            obtain ⟨-, hpbeq⟩ := occC nb hnb nb' hnb' pb hpb pb' hpb' hinos
            rw [hqp, ← hpbeq]
        · right
          rw [hpd] at hi
          have hf : f = (podFile a.ctxName nb.name pb.name pb.ino
              nb.ino).create_definition_file (pb.ino + 1) :=
            (congrArg Prod.fst (Option.some.inj hi)).symm
          refine ⟨hf, by rw [hf]; rfl, ?_⟩
          rw [hf]
          show pb.ino ≠ nb.ino
          exact fun hc => occB nb hnb nb hnb pb hpb hc.symm

/-- C4 (amended): after initialization and after every sequence of
make-directory calls, every non-root node's identifier appears in the child
list of exactly one table entry; that entry's key equals the node's
`parent_id` for Root/Context/Namespace/Pod nodes, while every Definition
node instead appears in the child list of the directory it describes (it is
that directory's definition file) with `parent_id` equal to that directory's
parent — so for Definition nodes the containing entry differs from
`parent_id`. -/
theorem tree_child_membership_invariant (k : Kubectl) (ops : List (Nat × String)) :
    ∀ i f cs,
      Table.get (runMkdirs k (initialize_inode_table k K8sFS.new) ops).inode_table i
          = some (f, cs) →
      i ≠ ROOT_INODE →
      ∃ p pf pcs,
        Table.get (runMkdirs k (initialize_inode_table k K8sFS.new) ops).inode_table p
            = some (pf, pcs)
        ∧ i ∈ pcs
        ∧ (∀ q qf qcs,
            Table.get (runMkdirs k (initialize_inode_table k K8sFS.new) ops).inode_table q
                = some (qf, qcs) → i ∈ qcs → q = p)
        ∧ (f.parent = p
            ∨ (f = pf.create_definition_file i ∧ f.parent = pf.parent ∧ p ≠ f.parent)) := by
  obtain ⟨a, ha⟩ := runMkdirs_inv k ops (initialize_inode_table k K8sFS.new)
    (absOfInit k) (init_inv k)
  exact inv_child_membership _ a ha

/-- C4 amendment witness: in the §8 scenario, namespace `default` (inode 2)
sits in exactly one child list, the Context's, matching its parent_id. -/
theorem tree_child_membership_invariant_witness :
    ∃ p pf pcs,
      Table.get (runMkdirs demoK (initialize_inode_table demoK K8sFS.new) []).inode_table p
          = some (pf, pcs)
      ∧ 2 ∈ pcs
      ∧ (∀ q qf qcs,
          Table.get (runMkdirs demoK (initialize_inode_table demoK K8sFS.new) []).inode_table q
              = some (qf, qcs) → 2 ∈ qcs → q = p)
      ∧ ((ResourceFile.new 2 CONTEXT_INODE "default" .Namespace "ctx" "default").parent = p
          ∨ (ResourceFile.new 2 CONTEXT_INODE "default" .Namespace "ctx" "default"
                = pf.create_definition_file 2
              ∧ (ResourceFile.new 2 CONTEXT_INODE "default" .Namespace "ctx"
                  "default").parent = pf.parent
              ∧ p ≠ (ResourceFile.new 2 CONTEXT_INODE "default" .Namespace "ctx"
                  "default").parent)) :=
  tree_child_membership_invariant demoK [] 2
    (ResourceFile.new 2 CONTEXT_INODE "default" .Namespace "ctx" "default") [3, 4]
    (by decide) (by decide)

end K8sfs
